import Mathlib

/-!
# Verification of the ralphinho scheduled-work orchestration engine

Shallow embedding of the orchestration core of the `ralphinho` repository:

* `src/scheduled/types.ts` — work units, tier table (`SCHEDULED_TIERS`),
  `validateDAG`, `computeLayers`;
* `src/components/ScheduledWorkflow.tsx` — `tierComplete`, `unitLanded`,
  `unitEvicted`, `buildMergeTickets`, the Phase-1 render guard, the pass
  tracker and the termination condition;
* `src/components/QualityPipeline.tsx` — `tierHasStep`, `bothApproved`
  (the `review-fix` skip condition).

The durable output store is modelled as per-kind append-only lists of
records keyed by node id; `ctx.latest` returns the most recently appended
record for a key, `ctx.outputMaybe` with an explicit iteration returns the
record appended at exactly that loop iteration.  The TypeScript functions
below are translated clause by clause; `Option` stands for
`undefined`-able values, and recursions that TypeScript bounds only by the
shape of the input carry an explicit fuel argument together with theorems
showing the fuel chosen by the embedding is always sufficient.
-/

namespace Ralphinho

/-! ## Data model (src/scheduled/types.ts)

`tier` is a `String` at runtime: `tierComplete` defaults a missing unit's
tier to `"large"` and its `switch` has a `default` branch, and
`tierHasStep` takes `tier: string` and falls back to the `large` stage
list, so the embedding keeps the representation that those functions
actually branch on. -/

structure WorkUnit where
  id : String
  name : String
  rfcSections : List String
  description : String
  deps : List String
  acceptance : List String
  tier : String
  deriving DecidableEq, Repr

structure RepoInfo where
  projectName : String
  buildCmds : List (String × String)
  testCmds : List (String × String)
  deriving DecidableEq, Repr

structure WorkPlan where
  source : String
  generatedAt : String
  repo : RepoInfo
  units : List WorkUnit
  deriving DecidableEq, Repr

/-- `units.find((u) => u.id === unitId)` — shared by `tierComplete`,
`validateDAG` and `computeLayers`. -/
def findUnit (units : List WorkUnit) (unitId : String) : Option WorkUnit :=
  units.find? (fun u => u.id = unitId)

/-! ## Stage records (src/scheduled/schemas.ts, `scheduledOutputSchemas`) -/

structure ReviewIssue where
  severity : String
  description : String
  file : Option String
  suggestion : Option String
  reference : Option String
  deriving DecidableEq, Repr

structure ImplementRecord where
  summary : String
  filesCreated : Option (List String)
  filesModified : Option (List String)
  whatWasDone : String
  nextSteps : Option String
  believesComplete : Bool
  deriving DecidableEq, Repr

structure TestRecord where
  buildPassed : Bool
  testsPassed : Bool
  testsPassCount : Nat
  testsFailCount : Nat
  failingSummary : Option String
  testOutput : String
  deriving DecidableEq, Repr

structure PrdReviewRecord where
  severity : String
  approved : Bool
  feedback : String
  issues : Option (List ReviewIssue)
  deriving DecidableEq, Repr

structure CodeReviewRecord where
  severity : String
  approved : Bool
  feedback : String
  issues : Option (List ReviewIssue)
  deriving DecidableEq, Repr

structure ReviewFixItem where
  issue : String
  fix : String
  file : Option String
  deriving DecidableEq, Repr

structure FalsePositiveItem where
  issue : String
  reasoning : String
  deriving DecidableEq, Repr

structure ReviewFixRecord where
  summary : String
  fixesMade : List ReviewFixItem
  falsePositives : List FalsePositiveItem
  allIssuesResolved : Bool
  buildPassed : Bool
  testsPassed : Bool
  deriving DecidableEq, Repr

structure RemainingIssue where
  severity : String
  description : String
  file : Option String
  deriving DecidableEq, Repr

/-- `qualityScore` is a JSON number never consumed by the orchestration
logic; it is embedded as an integer. -/
structure FinalReviewRecord where
  readyToMoveOn : Bool
  reasoning : String
  approved : Bool
  qualityScore : Int
  remainingIssues : Option (List RemainingIssue)
  deriving DecidableEq, Repr

structure LandedTicket where
  ticketId : String
  mergeCommit : Option String
  summary : String
  deriving DecidableEq, Repr

structure EvictedTicket where
  ticketId : String
  reason : String
  details : String
  deriving DecidableEq, Repr

structure SkippedTicket where
  ticketId : String
  reason : String
  deriving DecidableEq, Repr

structure MergeQueueRecord where
  ticketsLanded : List LandedTicket
  ticketsEvicted : List EvictedTicket
  ticketsSkipped : List SkippedTicket
  summary : String
  nextActions : Option String
  deriving DecidableEq, Repr

structure PassTrackerRecord where
  totalIterations : Nat
  unitsRun : List String
  unitsComplete : List String
  summary : String
  deriving DecidableEq, Repr

/-! ## The durable output store and the render context

One append-only table per stage kind, keyed by node id.  An `Entry`
remembers the Ralph-loop iteration at which the record was appended,
because `ctx.outputMaybe(kind, { nodeId, iteration })` queries by it. -/

structure Entry (α : Type) where
  iteration : Nat
  record : α
  deriving DecidableEq, Repr

/-- Latest-wins read: the most recently appended record for a key. -/
def latestOf {α : Type} (entries : List (Entry α)) : Option α :=
  entries.getLast?.map Entry.record

/-- `ctx.outputMaybe(kind, { nodeId, iteration })`: the record appended for
this key at exactly the given loop iteration. -/
def outputAt {α : Type} (entries : List (Entry α)) (iter : Nat) : Option α :=
  ((entries.filter (fun e => e.iteration = iter)).getLast?).map Entry.record

structure Store where
  implement : String → List (Entry ImplementRecord)
  test : String → List (Entry TestRecord)
  prd_review : String → List (Entry PrdReviewRecord)
  code_review : String → List (Entry CodeReviewRecord)
  review_fix : String → List (Entry ReviewFixRecord)
  final_review : String → List (Entry FinalReviewRecord)
  merge_queue : String → List (Entry MergeQueueRecord)
  pass_tracker : String → List (Entry PassTrackerRecord)

/-- The slice of `SmithersCtx` the orchestration logic reads: the output
store plus the current Ralph-loop iteration counter. -/
structure Ctx where
  store : Store
  iteration : Nat

def Ctx.latestImplement (ctx : Ctx) (nodeId : String) : Option ImplementRecord :=
  latestOf (ctx.store.implement nodeId)

def Ctx.latestTest (ctx : Ctx) (nodeId : String) : Option TestRecord :=
  latestOf (ctx.store.test nodeId)

def Ctx.latestPrdReview (ctx : Ctx) (nodeId : String) : Option PrdReviewRecord :=
  latestOf (ctx.store.prd_review nodeId)

def Ctx.latestCodeReview (ctx : Ctx) (nodeId : String) : Option CodeReviewRecord :=
  latestOf (ctx.store.code_review nodeId)

def Ctx.latestReviewFix (ctx : Ctx) (nodeId : String) : Option ReviewFixRecord :=
  latestOf (ctx.store.review_fix nodeId)

def Ctx.latestFinalReview (ctx : Ctx) (nodeId : String) : Option FinalReviewRecord :=
  latestOf (ctx.store.final_review nodeId)

def Ctx.latestMergeQueue (ctx : Ctx) (nodeId : String) : Option MergeQueueRecord :=
  latestOf (ctx.store.merge_queue nodeId)

def Ctx.latestPassTracker (ctx : Ctx) (nodeId : String) : Option PassTrackerRecord :=
  latestOf (ctx.store.pass_tracker nodeId)

def Ctx.outputMaybeTest (ctx : Ctx) (nodeId : String) (iter : Nat) : Option TestRecord :=
  outputAt (ctx.store.test nodeId) iter

/-! ## Stage gate (src/scheduled/types.ts `SCHEDULED_TIERS`,
src/components/QualityPipeline.tsx `tierHasStep`) -/

def trivialStages : List String := ["implement", "test"]

def smallStages : List String := ["implement", "test", "code-review"]

def mediumStages : List String :=
  ["research", "plan", "implement", "test", "prd-review", "code-review", "review-fix"]

def largeStages : List String :=
  ["research", "plan", "implement", "test", "prd-review", "code-review", "review-fix",
   "final-review"]

/-- The OWN properties of the `SCHEDULED_TIERS` object literal: the four
tier keys and their stage lists.  (A JavaScript property read also
consults the prototype chain; `SCHEDULED_TIERS_runtime` below models the
full read, including the `Object.prototype` members.) -/
def SCHEDULED_TIERS (tier : String) : Option (List String) :=
  if tier = "trivial" then some trivialStages
  else if tier = "small" then some smallStages
  else if tier = "medium" then some mediumStages
  else if tier = "large" then some largeStages
  else none

/-- QualityPipeline.tsx `tierHasStep` on tier strings that do not name an
`Object.prototype` member: membership in the tier's stage list, falling
back to the `large` list when the lookup yields `undefined`.
`tierHasStepRuntime` below models the full runtime behaviour, including
the `TypeError` thrown when the property read returns an inherited
member. -/
def tierHasStep (tier step : String) : Bool :=
  match SCHEDULED_TIERS tier with
  | some stages => stages.contains step
  | none => largeStages.contains step

/-- The value of the JavaScript property read
`SCHEDULED_TIERS[tier as keyof typeof SCHEDULED_TIERS]`: an own property
(one of the four stage lists), a truthy member inherited from
`Object.prototype`, or `undefined`. -/
inductive JsTierProperty where
  | own (stages : List String)
  | inheritedMember
  | undef
  deriving DecidableEq, Repr

/-- The property names every plain object inherits from
`Object.prototype`; reading any of them on an object literal yields a
truthy function (or, for `__proto__`, a truthy object), never
`undefined`. -/
def objectPrototypeProps : List String :=
  ["constructor", "hasOwnProperty", "isPrototypeOf", "propertyIsEnumerable",
   "toLocaleString", "toString", "valueOf", "__proto__", "__defineGetter__",
   "__defineSetter__", "__lookupGetter__", "__lookupSetter__"]

/-- `SCHEDULED_TIERS[tier]` as the property read behaves at runtime: own
keys first, then the `Object.prototype` chain, then `undefined`. -/
def SCHEDULED_TIERS_runtime (tier : String) : JsTierProperty :=
  match SCHEDULED_TIERS tier with
  | some stages => JsTierProperty.own stages
  | none =>
    if tier ∈ objectPrototypeProps then JsTierProperty.inheritedMember
    else JsTierProperty.undef

/-- QualityPipeline.tsx `tierHasStep` under the runtime lookup.  For a
tier naming an `Object.prototype` member the `stages ?` guard sees a
truthy non-array, and `(stages as readonly string[]).includes(step)`
throws a `TypeError` (modelled as `Except.error`); only a genuinely
`undefined` lookup reaches the `large`-list fallback. -/
def tierHasStepRuntime (tier step : String) : Except String Bool :=
  match SCHEDULED_TIERS_runtime tier with
  | JsTierProperty.own stages => Except.ok (stages.contains step)
  | JsTierProperty.inheritedMember =>
    Except.error "TypeError: stages.includes is not a function"
  | JsTierProperty.undef => Except.ok (largeStages.contains step)

/-! ## Tier completion (ScheduledWorkflow.tsx `tierComplete`) -/

/-- ScheduledWorkflow.tsx `tierComplete`: tests must pass for every tier,
then the tier-specific gate; a missing unit defaults to `"large"`, and the
`switch` sends `"large"` and every unknown tier to the final-review gate. -/
def tierComplete (ctx : Ctx) (units : List WorkUnit) (unitId : String) : Bool :=
  let unit := findUnit units unitId
  let tier := (unit.map WorkUnit.tier).getD "large"
  match ctx.latestTest (unitId ++ ":test") with
  | none => false
  | some test =>
    if !test.testsPassed || !test.buildPassed then false
    else if tier = "trivial" then true
    else if tier = "small" then
      ((ctx.latestCodeReview (unitId ++ ":code-review")).map CodeReviewRecord.approved).getD
        false
    else if tier = "medium" then
      let prd := ctx.latestPrdReview (unitId ++ ":prd-review")
      let cr := ctx.latestCodeReview (unitId ++ ":code-review")
      if (prd.map PrdReviewRecord.approved).getD false
          && (cr.map CodeReviewRecord.approved).getD false then true
      else
        ((ctx.latestReviewFix (unitId ++ ":review-fix")).map
          ReviewFixRecord.allIssuesResolved).getD false
    else
      ((ctx.latestFinalReview (unitId ++ ":final-review")).map
        FinalReviewRecord.readyToMoveOn).getD false

/-! ## Landing gates (ScheduledWorkflow.tsx)

The component builds `unitLayerMap : Map<string, number>` from the computed
layers; the derivation functions below take that map (as an association
list with `Map.set` overwrite semantics) together with the render context. -/

/-- `Map.set` semantics on an association list: the new binding shadows and
removes any previous binding for the key. -/
def mapSet (m : List (String × Nat)) (k : String) (v : Nat) : List (String × Nat) :=
  (k, v) :: m.eraseP (fun p => p.1 == k)

/-- `layers.forEach((layer, idx) => layer.forEach((u) => unitLayerMap.set(u.id, idx)))`. -/
def unitLayerMap (layers : List (List WorkUnit)) : List (String × Nat) :=
  (layers.enum).foldl
    (fun m p => p.2.foldl (fun m' u => mapSet m' u.id p.1) m) []

/-- ScheduledWorkflow.tsx `unitLanded`: the unit's id appears in the
`ticketsLanded` list of the LATEST `merge_queue` record for its layer. -/
def unitLanded (ctx : Ctx) (layerMap : List (String × Nat)) (unitId : String) : Bool :=
  match layerMap.lookup unitId with
  | none => false
  | some layerIdx =>
    match ctx.latestMergeQueue ("merge-queue:layer-" ++ toString layerIdx) with
    | none => false
    | some mq => mq.ticketsLanded.any (fun t => t.ticketId == unitId)

/-- ScheduledWorkflow.tsx `unitEvicted`: not landed, and listed in the
latest merge-queue record's `ticketsEvicted` for its layer. -/
def unitEvicted (ctx : Ctx) (layerMap : List (String × Nat)) (unitId : String) : Bool :=
  if unitLanded ctx layerMap unitId then false
  else
    match layerMap.lookup unitId with
    | none => false
    | some layerIdx =>
      match ctx.latestMergeQueue ("merge-queue:layer-" ++ toString layerIdx) with
      | none => false
      | some mq => mq.ticketsEvicted.any (fun t => t.ticketId == unitId)

/-- ScheduledWorkflow.tsx `getEvictionContext`. -/
def getEvictionContext (ctx : Ctx) (layerMap : List (String × Nat)) (unitId : String) :
    Option String :=
  if unitLanded ctx layerMap unitId then none
  else
    match layerMap.lookup unitId with
    | none => none
    | some layerIdx =>
      match ctx.latestMergeQueue ("merge-queue:layer-" ++ toString layerIdx) with
      | none => none
      | some mq =>
        (mq.ticketsEvicted.find? (fun t => t.ticketId == unitId)).map EvictedTicket.details

/-- ScheduledWorkflow.tsx `unitComplete` — an alias for `unitLanded`. -/
def unitComplete (ctx : Ctx) (layerMap : List (String × Nat)) (unitId : String) : Bool :=
  unitLanded ctx layerMap unitId

/-! ## Pass tracking and termination (ScheduledWorkflow.tsx) -/

/-- `passTracker?.totalIterations ?? 0`. -/
def currentPass (ctx : Ctx) : Nat :=
  ((ctx.latestPassTracker "pass-tracker").map PassTrackerRecord.totalIterations).getD 0

/-- `units.every((u) => unitComplete(u.id))`. -/
def allUnitsComplete (ctx : Ctx) (layerMap : List (String × Nat))
    (units : List WorkUnit) : Bool :=
  units.all (fun u => unitComplete ctx layerMap u.id)

/-- `done = currentPass >= maxPasses || allUnitsComplete`. -/
def doneFlag (ctx : Ctx) (layerMap : List (String × Nat)) (units : List WorkUnit)
    (maxPasses : Nat) : Bool :=
  decide (currentPass ctx ≥ maxPasses) || allUnitsComplete ctx layerMap units

/-- The `<Ralph maxIterations={maxPasses * units.length * 20}>` hard ceiling. -/
def ralphMaxIterations (maxPasses : Nat) (units : List WorkUnit) : Nat :=
  maxPasses * units.length * 20

/-! ## Merge-queue candidates and the Phase-1 render guard -/

structure AgenticMergeQueueTicket where
  ticketId : String
  ticketTitle : String
  ticketCategory : String
  priority : String
  reportComplete : Bool
  landed : Bool
  filesModified : List String
  filesCreated : List String
  worktreePath : String
  deriving DecidableEq, Repr

/-- The filter of ScheduledWorkflow.tsx `buildMergeTickets`: drop landed
units, require `tierComplete`, and re-admit previously evicted units only
on a passing test record at the current iteration. -/
def mergeTicketFilter (ctx : Ctx) (units : List WorkUnit)
    (layerMap : List (String × Nat)) (u : WorkUnit) : Bool :=
  if unitLanded ctx layerMap u.id then false
  else if !tierComplete ctx units u.id then false
  else if unitEvicted ctx layerMap u.id then
    match ctx.outputMaybeTest (u.id ++ ":test") ctx.iteration with
    | none => false
    | some freshTest => freshTest.testsPassed && freshTest.buildPassed
  else true

/-- ScheduledWorkflow.tsx `buildMergeTickets`. -/
def buildMergeTickets (ctx : Ctx) (units : List WorkUnit)
    (layerMap : List (String × Nat)) (layer : List WorkUnit) :
    List AgenticMergeQueueTicket :=
  (layer.filter (mergeTicketFilter ctx units layerMap)).map (fun u =>
    let impl := ctx.latestImplement (u.id ++ ":implement")
    { ticketId := u.id
      ticketTitle := u.name
      ticketCategory := u.tier
      priority := "medium"
      reportComplete := true
      landed := false
      filesModified := (impl.bind ImplementRecord.filesModified).getD []
      filesCreated := (impl.bind ImplementRecord.filesCreated).getD []
      worktreePath := "/tmp/workflow-wt-" ++ u.id })

/-- The Phase-1 render guard: `layer.map((unit) => { if (unitLanded(unit.id))
return null; return <QualityPipeline .../>; })` — the units of a layer whose
Quality Pipeline is rendered this pass. -/
def phase1Units (ctx : Ctx) (layerMap : List (String × Nat)) (layer : List WorkUnit) :
    List WorkUnit :=
  layer.filter (fun u => !unitLanded ctx layerMap u.id)

/-! ## Review-fix skip condition (QualityPipeline.tsx) -/

/-- QualityPipeline.tsx `bothApproved` — the `skipIf` of the `review-fix`
task: `(prdReview?.approved ?? !tierHasStep(tier, "prd-review")) &&
(codeReview?.approved ?? false)`. -/
def bothApproved (ctx : Ctx) (uid tier : String) : Bool :=
  (((ctx.latestPrdReview (uid ++ ":prd-review")).map PrdReviewRecord.approved).getD
      (!tierHasStep tier "prd-review"))
    && (((ctx.latestCodeReview (uid ++ ":code-review")).map
          CodeReviewRecord.approved).getD false)

/-! ## Layer computation (src/scheduled/types.ts `computeLayers`)

`getLayer` in the source memoizes into a `Map` and recurses through
`deps`; TypeScript terminates on every acyclic input because the
recursion depth is bounded by the number of units.  The embedding passes
the memo table explicitly and adds a fuel argument consumed on each
nested `getLayer` recursion into a unit's deps; `none` marks fuel
exhaustion, which corresponds to the infinite recursion the source would
exhibit on a cyclic input.  The fold over `u.deps` mirrors
`unit.deps.map((d) => getLayer(d))` evaluated left to right, threading
the memo. -/

def getLayer1 (units : List WorkUnit) : Nat → List (String × Nat) → String →
    Option (Nat × List (String × Nat))
  | fuel, memo, id =>
    match memo.lookup id with
    | some v => some (v, memo)
    | none =>
      match findUnit units id with
      | none => some (0, (id, 0) :: memo)
      | some u =>
        if u.deps = [] then some (0, (id, 0) :: memo)
        else
          match fuel with
          | 0 => none
          | fuel' + 1 =>
            match u.deps.foldl (fun acc d =>
              match acc with
              | none => none
              | some (vals, m) =>
                match getLayer1 units fuel' m d with
                | none => none
                | some (v, m') => some (vals ++ [v], m')) (some ([], memo)) with
            | none => none
            | some (depVals, memo1) =>
              let layer := depVals.foldl max 0 + 1
              some (layer, (id, layer) :: memo1)

/-- Fuel sufficient for every acyclic input: the number of units bounds
the length of any duplicate-free dependency chain. -/
def computeLayersFuel (units : List WorkUnit) : Nat := units.length + 1

/-- The top-level `for (const unit of units) getLayer(unit.id)` loop,
accumulating the memo table. -/
def computeLayersMemo (units : List WorkUnit) (fuel : Nat) :
    Option (List (String × Nat)) :=
  units.foldl (fun acc u =>
    match acc with
    | none => none
    | some m => (getLayer1 units fuel m u.id).map Prod.snd) (some [])

/-- src/scheduled/types.ts `computeLayers`: memoized layer computation,
then grouping `units` by layer index `0..maxLayer`, preserving input
order.  `none` only on inputs where the source would loop forever. -/
def computeLayers (units : List WorkUnit) : Option (List (List WorkUnit)) :=
  match computeLayersMemo units (computeLayersFuel units) with
  | none => none
  | some memo =>
    let maxLayer := (memo.map Prod.snd).foldl max 0
    some ((List.range (maxLayer + 1)).map (fun i =>
      units.filter (fun u => memo.lookup u.id == some i)))

/-! ## DAG validation (src/scheduled/types.ts `validateDAG`)

The source's `dfs` mutates three closure variables (`visited`, `inStack`,
`errors`); the embedding threads them as a `DfsState`.  Sets are
insertion-ordered lists queried by membership.  Fuel is consumed on each
nested `dfs` call; `dfsFuel` is proven sufficient for every input. -/

structure DfsState where
  visited : List String
  inStack : List String
  errors : List String
  deriving DecidableEq, Repr

/-- `Unit "{unit.id}" depends on "{dep}" which does not exist`. -/
def unknownDepMsg (unitId dep : String) : String :=
  "Unit \"" ++ unitId ++ "\" depends on \"" ++ dep ++ "\" which does not exist"

/-- `Cycle detected involving "{id}" → "{dep}"`. -/
def cycleMsg (id dep : String) : String :=
  "Cycle detected involving \"" ++ id ++ "\" → \"" ++ dep ++ "\""

/-- One `dfs(id)` call of `validateDAG`: early return on `inStack`
(cycle) or `visited`; otherwise mark, loop over the unit's deps (the fold
mirrors the `for (const dep of unit.deps)` loop — on the first dep whose
recursive call reports a cycle it pushes the `Cycle detected` error
naming the closing edge `id → dep` and skips the remaining deps, i.e. the
source's early `return true`), and unmark `inStack` only on a clean
completion. -/
def dfs1 (units : List WorkUnit) : Nat → DfsState → String → Option (Bool × DfsState)
  | fuel, s, id =>
    if id ∈ s.inStack then some (true, s)
    else if id ∈ s.visited then some (false, s)
    else
      match fuel with
      | 0 => none
      | fuel' + 1 =>
        match findUnit units id with
        | none =>
          some (false,
            { s with
                visited := s.visited ++ [id]
                inStack := (s.inStack ++ [id]).erase id })
        | some u =>
          match u.deps.foldl (fun acc d =>
            match acc with
            | none => none
            | some (true, t) => some (true, t)
            | some (false, t) =>
              match dfs1 units fuel' t d with
              | none => none
              | some (true, t') =>
                some (true, { t' with errors := t'.errors ++ [cycleMsg id d] })
              | some (false, t') => some (false, t'))
            (some (false,
              { s with
                  visited := s.visited ++ [id]
                  inStack := s.inStack ++ [id] })) with
          | none => none
          | some (true, s2) => some (true, s2)
          | some (false, s2) => some (false, { s2 with inStack := s2.inStack.erase id })

/-- The top-level `for (const unit of units) dfs(unit.id)` loop — results
are discarded. -/
def dfsAll (units : List WorkUnit) (fuel : Nat) (s : DfsState) (ids : List String) :
    Option DfsState :=
  match ids with
  | [] => some s
  | id :: rest =>
    match dfs1 units fuel s id with
    | none => none
    | some (_, s') => dfsAll units fuel s' rest

/-- Every id the DFS can ever visit: unit ids and every dep mention. -/
def allIds (units : List WorkUnit) : List String :=
  units.flatMap (fun u => u.id :: u.deps)

/-- Fuel sufficient for every input: each nested `dfs` call marks a fresh
id visited, so nesting is bounded by the number of distinct ids. -/
def dfsFuel (units : List WorkUnit) : Nat := (allIds units).dedup.length + 1

/-- src/scheduled/types.ts `validateDAG`: unknown-dependency errors for
every dep id that does not resolve, then a DFS cycle check from every
unit; `valid` iff no error was recorded.  The `none` branch is
unreachable (`dfsFuel` is proven sufficient for every input). -/
def validateDAG (units : List WorkUnit) : Bool × List String :=
  let ids := units.map WorkUnit.id
  let unknownErrors := units.flatMap (fun u =>
    (u.deps.filter (fun d => !ids.contains d)).map (fun d => unknownDepMsg u.id d))
  match dfsAll units (dfsFuel units)
      { visited := [], inStack := [], errors := unknownErrors }
      (units.map WorkUnit.id) with
  | none => (false, [])
  | some s => (s.errors.isEmpty, s.errors)

/-! ## Dependency chains and cycles

`DepChain units p` holds when consecutive elements of `p` follow a
dependency edge: each element but the last resolves to a unit whose
`deps` contain the next element.  `CycleEdge units x y` says the edge
`x → y` closes a cycle: `y` is a dep of (the unit found for) `x` and a
dependency chain leads from `y` back to `x`. -/

inductive DepChain (units : List WorkUnit) : List String → Prop
  | single (a : String) : DepChain units [a]
  | cons {a b : String} {rest : List String} (u : WorkUnit)
      (hu : findUnit units a = some u) (hb : b ∈ u.deps)
      (hrest : DepChain units (b :: rest)) : DepChain units (a :: b :: rest)

def CycleEdge (units : List WorkUnit) (x y : String) : Prop :=
  (∃ u, findUnit units x = some u ∧ y ∈ u.deps) ∧
  ∃ p, DepChain units p ∧ p.head? = some y ∧ p.getLast? = some x

/-- The unit set contains a dependency cycle. -/
def HasCycle (units : List WorkUnit) : Prop := ∃ x y, CycleEdge units x y

/-- The dependency relation over the unit set is acyclic. -/
def Acyclic (units : List WorkUnit) : Prop := ¬HasCycle units

/-- An id is grounded when every dependency path below it is finite:
either it resolves to no unit, or all deps of its unit are grounded. -/
inductive Grounded (units : List WorkUnit) : String → Prop
  | missing (id : String) (h : findUnit units id = none) : Grounded units id
  | found (id : String) (u : WorkUnit) (h : findUnit units id = some u)
      (hdeps : ∀ d ∈ u.deps, Grounded units d) : Grounded units id

/-- A dependency chain leads from `src` to `id` (possibly of length one,
when `src = id`). -/
def Reach (units : List WorkUnit) (src id : String) : Prop :=
  ∃ p, DepChain units p ∧ p.head? = some src ∧ p.getLast? = some id

/-- Every id the DFS of `validateDAG` has finished (visited and popped
from the stack) is grounded — the clean-run invariant of the cycle
check. -/
def GoodS (units : List WorkUnit) (s : DfsState) : Prop :=
  ∀ id ∈ s.visited, id ∉ s.inStack → Grounded units id

/-- Every memo entry satisfies the defining equations of `getLayer`:
value `0` for a missing unit or an empty dep list, otherwise one more
than the maximum of the (present) dep entries. -/
def MemoGood (units : List WorkUnit) (memo : List (String × Nat)) : Prop :=
  ∀ id v, memo.lookup id = some v →
    ((findUnit units id = none ∨ ∃ u, findUnit units id = some u ∧ u.deps = []) →
      v = 0) ∧
    ∀ u, findUnit units id = some u → u.deps ≠ [] →
      (∀ d ∈ u.deps, (memo.lookup d).isSome) ∧
      v = (u.deps.map (fun d => (memo.lookup d).getD 0)).foldl max 0 + 1

/-! ## Spec-side comparison definitions -/

/-- Modelled from the spec: "A unit is considered landed if and only if
its id appears in any accumulated `landed` list across all passes for its
layer."  This scans EVERY `merge_queue` record ever appended for the
layer, not only the latest one; it is the accumulation the repository's
own documentation (`SCHEDULED_WORK.md`, "appears in any `ticketsLanded`
array") describes, used to compare against the code's `unitLanded`. -/
def unitLandedAccumulated (ctx : Ctx) (layerMap : List (String × Nat))
    (unitId : String) : Bool :=
  match layerMap.lookup unitId with
  | none => false
  | some layerIdx =>
    (ctx.store.merge_queue ("merge-queue:layer-" ++ toString layerIdx)).any
      (fun e => e.record.ticketsLanded.any (fun t => t.ticketId == unitId))

/-- Modelled from the spec: a unit counts as PREVIOUSLY evicted when its
id appears in any accumulated `ticketsEvicted` list across all passes
for its layer — the scan the repository's own documentation
(`SCHEDULED_WORK.md`, "appears in any `ticketsEvicted` array") describes
and the spec's re-admission guard quantifies over, used to compare
against the code's latest-record-only `unitEvicted`. -/
def unitEvictedAccumulated (ctx : Ctx) (layerMap : List (String × Nat))
    (unitId : String) : Bool :=
  match layerMap.lookup unitId with
  | none => false
  | some layerIdx =>
    (ctx.store.merge_queue ("merge-queue:layer-" ++ toString layerIdx)).any
      (fun e => e.record.ticketsEvicted.any (fun t => t.ticketId == unitId))

/-- Modelled from the spec: the `large` tier-complete gate as the spec
states it — the `medium` conditions (tests and build passed, and either
both reviews approved or review-fix reports all issues resolved) AND
`finalReview.readyToMoveOn` — used to compare against the code's
`tierComplete`. -/
def specLargeTierGate (ctx : Ctx) (unitId : String) : Bool :=
  (match ctx.latestTest (unitId ++ ":test") with
   | none => false
   | some t => t.testsPassed && t.buildPassed)
  && ((((ctx.latestPrdReview (unitId ++ ":prd-review")).map PrdReviewRecord.approved).getD
          false
        && (((ctx.latestCodeReview (unitId ++ ":code-review")).map
              CodeReviewRecord.approved).getD false))
      || (((ctx.latestReviewFix (unitId ++ ":review-fix")).map
            ReviewFixRecord.allIssuesResolved).getD false))
  && (((ctx.latestFinalReview (unitId ++ ":final-review")).map
        FinalReviewRecord.readyToMoveOn).getD false)

/-- The test-then-final-review branch of `tierComplete` (the `case
"large": default:` arm of its `switch`), named so the default-tier facts
can be stated. -/
def largeGate (ctx : Ctx) (unitId : String) : Bool :=
  match ctx.latestTest (unitId ++ ":test") with
  | none => false
  | some test =>
    if !test.testsPassed || !test.buildPassed then false
    else
      ((ctx.latestFinalReview (unitId ++ ":final-review")).map
        FinalReviewRecord.readyToMoveOn).getD false

/-! ## Concrete fixtures used by counterexamples and witnesses -/

def mkUnit (id : String) (deps : List String) (tier : String) : WorkUnit :=
  { id := id, name := id, rfcSections := [], description := "", deps := deps,
    acceptance := [], tier := tier }

def emptyStore : Store :=
  { implement := fun _ => [], test := fun _ => [], prd_review := fun _ => [],
    code_review := fun _ => [], review_fix := fun _ => [], final_review := fun _ => [],
    merge_queue := fun _ => [], pass_tracker := fun _ => [] }

def passingTest : TestRecord :=
  { buildPassed := true, testsPassed := true, testsPassCount := 1, testsFailCount := 0,
    failingSummary := none, testOutput := "" }

def readyFinalReview : FinalReviewRecord :=
  { readyToMoveOn := true, reasoning := "", approved := true, qualityScore := 9,
    remainingIssues := none }

def rejectedPrdReview : PrdReviewRecord :=
  { severity := "major", approved := false, feedback := "gap", issues := none }

def approvedPrdReview : PrdReviewRecord :=
  { severity := "none", approved := true, feedback := "", issues := none }

def rejectedCodeReview : CodeReviewRecord :=
  { severity := "major", approved := false, feedback := "bug", issues := none }

def approvedCodeReview : CodeReviewRecord :=
  { severity := "none", approved := true, feedback := "", issues := none }

def unresolvedReviewFix : ReviewFixRecord :=
  { summary := "", fixesMade := [], falsePositives := [], allIssuesResolved := false,
    buildPassed := true, testsPassed := true }

def emptyMergeQueueRecord : MergeQueueRecord :=
  { ticketsLanded := [], ticketsEvicted := [], ticketsSkipped := [], summary := "",
    nextActions := none }

/-- C2 counterexample input: a `large` unit with passing tests and a
ready final review, but with both reviews rejected and review-fix not
resolved. -/
def c2Store : Store :=
  { emptyStore with
    test := fun n => if n = "a:test" then [⟨1, passingTest⟩] else []
    final_review := fun n => if n = "a:final-review" then [⟨1, readyFinalReview⟩] else []
    prd_review := fun n => if n = "a:prd-review" then [⟨1, rejectedPrdReview⟩] else []
    code_review := fun n => if n = "a:code-review" then [⟨1, rejectedCodeReview⟩] else []
    review_fix := fun n => if n = "a:review-fix" then [⟨1, unresolvedReviewFix⟩] else [] }

def c2Ctx : Ctx := { store := c2Store, iteration := 1 }

def c2Units : List WorkUnit := [mkUnit "a" [] "large"]

/-- C1 failing input: layer 0 holds `A` and `B`; the pass-1 merge-queue
record lands `A` and evicts `B`; the pass-2 record (the latest) lands `B`
and, as the external merge worker only reports the tickets it was handed,
no longer lists `A`. -/
def c1Units : List WorkUnit := [mkUnit "A" [] "trivial", mkUnit "B" [] "trivial"]

def c1Pass1Record : MergeQueueRecord :=
  { emptyMergeQueueRecord with
    ticketsLanded := [{ ticketId := "A", mergeCommit := some "c1", summary := "" }]
    ticketsEvicted := [{ ticketId := "B", reason := "conflict", details := "hunk" }] }

def c1Pass2Record : MergeQueueRecord :=
  { emptyMergeQueueRecord with
    ticketsLanded := [{ ticketId := "B", mergeCommit := some "c2", summary := "" }] }

def c1Store : Store :=
  { emptyStore with
    merge_queue := fun n =>
      if n = "merge-queue:layer-0" then [⟨1, c1Pass1Record⟩, ⟨2, c1Pass2Record⟩] else []
    test := fun n =>
      if n = "A:test" then [⟨1, passingTest⟩]
      else if n = "B:test" then [⟨2, passingTest⟩] else [] }

def c1Ctx : Ctx := { store := c1Store, iteration := 3 }

def c1Layers : List (List WorkUnit) := (computeLayers c1Units).getD []

def c1LayerMap : List (String × Nat) := unitLayerMap c1Layers

/-- C4 counterexample input: unit `E` was evicted by the pass-1
merge-queue record and a passing test record exists at iteration 2.  The
store is shared by both contexts; only the iteration counter differs. -/
def c4Units : List WorkUnit := [mkUnit "E" [] "trivial"]

def c4Store : Store :=
  { emptyStore with
    merge_queue := fun n =>
      if n = "merge-queue:layer-0" then
        [⟨1, { emptyMergeQueueRecord with
                ticketsEvicted := [{ ticketId := "E", reason := "conflict",
                                     details := "d" }] }⟩]
      else []
    test := fun n => if n = "E:test" then [⟨2, passingTest⟩] else [] }

def c4CtxA : Ctx := { store := c4Store, iteration := 2 }

def c4CtxB : Ctx := { store := c4Store, iteration := 3 }

def c4LayerMap : List (String × Nat) := [("E", 0)]

/-- Witness fixture for C7: a medium unit with both reviews approved. -/
def c7Store : Store :=
  { emptyStore with
    prd_review := fun n => if n = "m:prd-review" then [⟨1, approvedPrdReview⟩] else []
    code_review := fun n => if n = "m:code-review" then [⟨1, approvedCodeReview⟩] else [] }

def c7Ctx : Ctx := { store := c7Store, iteration := 1 }

/-- Witness fixture for C10: a unit with the unknown tier `"epic"`,
passing tests and a ready final review. -/
def c10Store : Store :=
  { emptyStore with
    test := fun n => if n = "x:test" then [⟨1, passingTest⟩] else []
    final_review := fun n => if n = "x:final-review" then [⟨1, readyFinalReview⟩] else [] }

def c10Ctx : Ctx := { store := c10Store, iteration := 1 }

def c10Units : List WorkUnit := [mkUnit "x" [] "epic"]

/-- The spec §8 scenario: `A`, `B` independent, `C` depends on both. -/
def scenarioUnits : List WorkUnit :=
  [mkUnit "A" [] "trivial", mkUnit "B" [] "trivial", mkUnit "C" ["A", "B"] "small"]

/-- A two-unit dependency cycle, witness input for the cycle claims. -/
def cycleUnits : List WorkUnit :=
  [mkUnit "X" ["Y"] "small", mkUnit "Y" ["X"] "small"]

/-- Fixture for the fresh-test guard lemma: `F` was evicted by the
merge-queue record of iteration 1 (still the latest record) and has a
fresh passing test at the current iteration 2. -/
def c3Units : List WorkUnit := [mkUnit "F" [] "trivial"]

def c3Store : Store :=
  { emptyStore with
    merge_queue := fun n =>
      if n = "merge-queue:layer-0" then
        [⟨1, { emptyMergeQueueRecord with
                ticketsEvicted := [{ ticketId := "F", reason := "ci-failure",
                                     details := "boom" }] }⟩]
      else []
    test := fun n =>
      if n = "F:test" then [⟨1, passingTest⟩, ⟨2, passingTest⟩] else [] }

def c3Ctx : Ctx := { store := c3Store, iteration := 2 }

def c3LayerMap : List (String × Nat) := [("F", 0)]

/-- C3 failing input: `U` was evicted by the pass-1 merge-queue record;
the pass-2 record (the latest) lands only `V` and no longer lists `U` as
evicted; `U`'s only test record is at iteration 1, not newer than the
eviction. -/
def c3bUnits : List WorkUnit := [mkUnit "U" [] "trivial", mkUnit "V" [] "trivial"]

def c3bStore : Store :=
  { emptyStore with
    merge_queue := fun n =>
      if n = "merge-queue:layer-0" then
        [⟨1, { emptyMergeQueueRecord with
                ticketsEvicted := [{ ticketId := "U", reason := "conflict",
                                     details := "hunks" }] }⟩,
         ⟨2, { emptyMergeQueueRecord with
                ticketsLanded := [{ ticketId := "V", mergeCommit := some "c9",
                                    summary := "" }] }⟩]
      else []
    test := fun n => if n = "U:test" then [⟨1, passingTest⟩] else [] }

def c3bCtx : Ctx := { store := c3bStore, iteration := 3 }

def c3bLayerMap : List (String × Nat) := [("U", 0), ("V", 0)]

/-! ## Supporting lemmas -/

/-! ### Dependency chains -/

theorem DepChain.ne_nil {units : List WorkUnit} {p : List String}
    (h : DepChain units p) : p ≠ [] := by
  cases h <;> simp

theorem DepChain.head_found {units : List WorkUnit} {a b : String} {rest : List String}
    (h : DepChain units (a :: b :: rest)) : ∃ u, findUnit units a = some u ∧ b ∈ u.deps := by
  cases h with
  | cons u hu hb _ => exact ⟨u, hu, hb⟩

theorem DepChain.tail {units : List WorkUnit} {a : String} {rest : List String}
    (h : DepChain units (a :: rest)) (hne : rest ≠ []) : DepChain units rest := by
  cases h with
  | single => exact absurd rfl hne
  | cons u _ _ hrest => exact hrest

theorem depChain_suffix {units : List WorkUnit} :
    ∀ (l₁ l₂ : List String), DepChain units (l₁ ++ l₂) → l₂ ≠ [] → DepChain units l₂ := by
  intro l₁
  induction l₁ with
  | nil => intro l₂ h _; exact h
  | cons a l₁' ih =>
    intro l₂ h hne
    have htail : DepChain units (l₁' ++ l₂) := by
      apply DepChain.tail (a := a)
      · exact h
      · intro hc
        rcases List.append_eq_nil.mp hc with ⟨_, h2⟩
        exact hne h2
    exact ih l₂ htail hne

theorem depChain_prefix {units : List WorkUnit} :
    ∀ (q r : List String), DepChain units (q ++ r) → q ≠ [] → DepChain units q := by
  intro q
  induction q with
  | nil => intro r _ hne; exact absurd rfl hne
  | cons a q' ih =>
    intro r h _
    cases q' with
    | nil => exact DepChain.single a
    | cons b q'' =>
      cases h with
      | cons u hu hb hrest =>
        exact DepChain.cons u hu hb (ih r hrest (by simp))

theorem depChain_snoc {units : List WorkUnit} {p : List String} {x y : String}
    (h : DepChain units p) (hl : p.getLast? = some x) {u : WorkUnit}
    (hu : findUnit units x = some u) (hy : y ∈ u.deps) : DepChain units (p ++ [y]) := by
  induction h with
  | single a =>
    simp only [List.getLast?_singleton, Option.some.injEq] at hl
    subst hl
    exact DepChain.cons u hu hy (DepChain.single y)
  | cons u' hu' hb hrest ih =>
    rw [List.getLast?_cons_cons] at hl
    exact DepChain.cons u' hu' hb (ih hl)

theorem depChain_cons_of_head {units : List WorkUnit} {p : List String} {x d : String}
    (h : DepChain units p) (hh : p.head? = some d) {u : WorkUnit}
    (hu : findUnit units x = some u) (hd : d ∈ u.deps) : DepChain units (x :: p) := by
  cases p with
  | nil => simp at hh
  | cons e p' =>
    simp only [List.head?_cons, Option.some.injEq] at hh
    subst hh
    exact DepChain.cons u hu hd h

theorem getLast?_cons_of_ne_nil {α : Type} {p : List α} (x : α) (h : p ≠ []) :
    (x :: p).getLast? = p.getLast? := by
  cases p with
  | nil => exact absurd rfl h
  | cons a l => exact List.getLast?_cons_cons

/-- A dependency walk that repeats an id yields a cycle edge. -/
theorem hasCycle_of_dup_chain {units : List WorkUnit} {p : List String}
    (h : DepChain units p) (hdup : ¬p.Nodup) : HasCycle units := by
  obtain ⟨a, l₁, l₂, l₃, rfl⟩ : ∃ a l₁ l₂ l₃, p = l₁ ++ a :: l₂ ++ a :: l₃ := by
    clear h
    induction p with
    | nil => exact absurd List.nodup_nil hdup
    | cons x xs ih =>
      rw [List.nodup_cons] at hdup
      push_neg at hdup
      by_cases hx : x ∈ xs
      · obtain ⟨s, t, rfl⟩ := List.append_of_mem hx
        exact ⟨x, [], s, t, rfl⟩
      · obtain ⟨a, l₁, l₂, l₃, rfl⟩ := ih (hdup hx)
        exact ⟨a, x :: l₁, l₂, l₃, rfl⟩
  have hmid : DepChain units (a :: l₂ ++ [a]) := by
    have h1 : DepChain units (a :: l₂ ++ a :: l₃) :=
      depChain_suffix l₁ (a :: l₂ ++ a :: l₃) (by simpa using h) (by simp)
    have h2 : DepChain units ((a :: l₂ ++ [a]) ++ l₃) := by simpa using h1
    exact depChain_prefix (a :: l₂ ++ [a]) l₃ h2 (by simp)
  cases l₂ with
  | nil =>
    obtain ⟨u, hu, hb⟩ := DepChain.head_found (by simpa using hmid)
    exact ⟨a, a, ⟨u, hu, hb⟩, [a], DepChain.single a, rfl, rfl⟩
  | cons b l₂' =>
    have hmid' : DepChain units (a :: b :: (l₂' ++ [a])) := by simpa using hmid
    obtain ⟨u, hu, hb⟩ := DepChain.head_found hmid'
    refine ⟨a, b, ⟨u, hu, hb⟩, b :: (l₂' ++ [a]), DepChain.tail hmid' (by simp), rfl, ?_⟩
    rw [getLast?_cons_of_ne_nil b (by simp)]
    exact List.getLast?_concat _

theorem acyclic_chain_nodup {units : List WorkUnit} (hac : Acyclic units)
    {p : List String} (h : DepChain units p) : p.Nodup := by
  by_contra hdup
  exact hac (hasCycle_of_dup_chain h hdup)

theorem depChain_dropLast_found {units : List WorkUnit} :
    ∀ {p : List String}, DepChain units p →
      ∀ a ∈ p.dropLast, (findUnit units a).isSome := by
  intro p h
  induction h with
  | single a => simp
  | cons u hu hb hrest ih =>
    intro x hx
    rw [List.dropLast_cons₂] at hx
    rcases List.mem_cons.mp hx with rfl | hx'
    · simp [hu]
    · exact ih x hx'

theorem nodup_sub_length_le {α : Type} [DecidableEq α] {l m : List α}
    (hnd : l.Nodup) (hsub : ∀ x ∈ l, x ∈ m) : l.length ≤ m.length := by
  classical
  calc l.length = l.toFinset.card := (List.toFinset_card_of_nodup hnd).symm
    _ ≤ m.toFinset.card := by
        apply Finset.card_le_card
        intro x hx
        rw [List.mem_toFinset] at hx ⊢
        exact hsub x hx
    _ ≤ m.length := List.toFinset_card_le m

/-- In an acyclic unit set, every dependency chain has at most
`units.length + 1` elements. -/
theorem chain_length_le {units : List WorkUnit} (hac : Acyclic units)
    {p : List String} (h : DepChain units p) : p.length ≤ units.length + 1 := by
  have hnd : p.dropLast.Nodup := (acyclic_chain_nodup hac h).sublist (List.dropLast_sublist p)
  have hsub : ∀ a ∈ p.dropLast, a ∈ units.map WorkUnit.id := by
    intro a ha
    have hfound := depChain_dropLast_found h a ha
    rw [Option.isSome_iff_exists] at hfound
    obtain ⟨u, hu⟩ := hfound
    unfold findUnit at hu
    have hmem := List.mem_of_find?_eq_some hu
    have hid : u.id = a :=
      of_decide_eq_true (List.find?_some (p := fun w : WorkUnit => decide (w.id = a)) hu)
    rw [List.mem_map]
    exact ⟨u, hmem, hid⟩
  have hle : p.dropLast.length ≤ (units.map WorkUnit.id).length :=
    nodup_sub_length_le hnd hsub
  rw [List.length_map] at hle
  have hlen : p.dropLast.length = p.length - 1 := List.length_dropLast p
  omega

/-! ### Association lists and folded maxima -/

theorem lookup_cons_self {β : Type} (k : String) (v : β) (m : List (String × β)) :
    List.lookup k ((k, v) :: m) = some v := by
  simp [List.lookup]

theorem lookup_cons_ne {β : Type} {k a : String} (v : β) (m : List (String × β))
    (h : k ≠ a) : List.lookup k ((a, v) :: m) = List.lookup k m := by
  have hb : (k == a) = false := beq_eq_false_iff_ne.mpr h
  simp [List.lookup, hb]

theorem lookup_cons_of_fresh {β : Type} {m : List (String × β)} {k id : String} {v : β}
    (hfresh : List.lookup id m = none) (h : (List.lookup k m).isSome) :
    List.lookup k ((id, v) :: m) = List.lookup k m := by
  have hk : k ≠ id := by
    intro he
    rw [he, hfresh] at h
    simp at h
  exact lookup_cons_ne v m hk

theorem lookup_mem_values {β : Type} :
    ∀ {m : List (String × β)} {k : String} {v : β},
      List.lookup k m = some v → v ∈ m.map Prod.snd := by
  intro m
  induction m with
  | nil => intro k v h; simp [List.lookup] at h
  | cons p m ih =>
    intro k v h
    rw [List.lookup] at h
    by_cases hk : k == p.1
    · rw [hk] at h
      simp at h
      simp [← h]
    · rw [Bool.not_eq_true] at hk
      rw [hk] at h
      simp only [List.map_cons, List.mem_cons]
      exact Or.inr (ih h)

theorem base_le_foldl_max : ∀ (l : List Nat) (a : Nat), a ≤ l.foldl max a := by
  intro l
  induction l with
  | nil => intro a; exact le_refl a
  | cons b l ih =>
    intro a
    calc a ≤ max a b := le_max_left a b
      _ ≤ l.foldl max (max a b) := ih (max a b)

theorem le_foldl_max : ∀ (l : List Nat) (a x : Nat), x ∈ l → x ≤ l.foldl max a := by
  intro l
  induction l with
  | nil => intro a x hx; simp at hx
  | cons b l ih =>
    intro a x hx
    rcases List.mem_cons.mp hx with rfl | hx'
    · calc x ≤ max a x := le_max_right a x
        _ ≤ l.foldl max (max a x) := base_le_foldl_max l (max a x)
    · exact ih (max a b) x hx'

/-- Extending a memo with a fresh key whose entry satisfies the
`getLayer` equations preserves `MemoGood`. -/
theorem memoGood_cons_fresh {units : List WorkUnit} {memo : List (String × Nat)}
    {id : String} {v : Nat}
    (hfresh : memo.lookup id = none) (hgood : MemoGood units memo)
    (hnew :
      ((findUnit units id = none ∨ ∃ u, findUnit units id = some u ∧ u.deps = []) →
        v = 0) ∧
      ∀ u, findUnit units id = some u → u.deps ≠ [] →
        (∀ d ∈ u.deps, (List.lookup d ((id, v) :: memo)).isSome) ∧
        v = (u.deps.map
              (fun d => (List.lookup d ((id, v) :: memo)).getD 0)).foldl max 0 + 1) :
    MemoGood units ((id, v) :: memo) := by
  intro k w hkw
  by_cases hk : k = id
  · subst hk
    rw [lookup_cons_self] at hkw
    injection hkw with hw
    subst hw
    exact hnew
  · rw [lookup_cons_ne v memo hk] at hkw
    obtain ⟨h0, hrec⟩ := hgood k w hkw
    refine ⟨h0, ?_⟩
    intro u hu hdeps
    obtain ⟨hall, hval⟩ := hrec u hu hdeps
    constructor
    · intro d hd
      rw [lookup_cons_of_fresh hfresh (hall d hd)]
      exact hall d hd
    · rw [hval]
      congr 1
      apply congrArg (fun l => List.foldl max 0 l)
      apply List.map_congr_left
      intro d hd
      rw [lookup_cons_of_fresh hfresh (hall d hd)]

theorem SCHEDULED_TIERS_cases (tier : String) :
    SCHEDULED_TIERS tier = none ∨ SCHEDULED_TIERS tier = some trivialStages ∨
    SCHEDULED_TIERS tier = some smallStages ∨ SCHEDULED_TIERS tier = some mediumStages ∨
    SCHEDULED_TIERS tier = some largeStages := by
  unfold SCHEDULED_TIERS
  split_ifs <;> simp

/-- Every tier whose stage list contains `review-fix` also has
`prd-review` (both `medium` and `large` do, and unknown tiers fall back
to the `large` list). -/
theorem tierHasStep_reviewFix_imp_prdReview (tier : String)
    (h : tierHasStep tier "review-fix" = true) :
    tierHasStep tier "prd-review" = true := by
  unfold tierHasStep at h ⊢
  rcases SCHEDULED_TIERS_cases tier with hc | hc | hc | hc | hc <;> rw [hc] at h ⊢ <;>
    first
    | rfl
    | exact absurd h (by decide)

theorem mem_of_getLast?_eq_some {α : Type} {l : List α} {a : α}
    (h : l.getLast? = some a) : a ∈ l := by
  obtain ⟨hne, hx⟩ := List.mem_getLast?_eq_getLast (x := a) h
  rw [hx]
  exact List.getLast_mem hne

theorem outputAt_eq_some {α : Type} {entries : List (Entry α)} {iter : Nat} {r : α}
    (h : outputAt entries iter = some r) :
    ∃ e ∈ entries, e.iteration = iter ∧ e.record = r := by
  unfold outputAt at h
  cases hl : (entries.filter (fun e => decide (e.iteration = iter))).getLast? with
  | none => rw [hl] at h; simp at h
  | some e =>
    rw [hl] at h
    simp only [Option.map_some', Option.some.injEq] at h
    have hmem := mem_of_getLast?_eq_some hl
    have := List.mem_filter.mp hmem
    exact ⟨e, this.1, of_decide_eq_true this.2, h⟩

/-! ### Correctness of the memoized layer computation -/

/-- Facts common to the `getLayer` base branches that memoize `0`
(missing unit, or empty dep list). -/
theorem zero_insert_facts {units : List WorkUnit} {memo : List (String × Nat)}
    {id : String} (hm : memo.lookup id = none) (hgood : MemoGood units memo)
    (hcase : findUnit units id = none ∨
      ∃ u, findUnit units id = some u ∧ u.deps = []) :
    MemoGood units ((id, 0) :: memo) ∧
    (∀ k w, memo.lookup k = some w → List.lookup k ((id, 0) :: memo) = some w) ∧
    List.lookup id ((id, 0) :: memo) = some 0 ∧
    (∀ k, (List.lookup k ((id, 0) :: memo)).isSome →
      (memo.lookup k).isSome ∨ Reach units id k) := by
  refine ⟨?_, ?_, lookup_cons_self id 0 memo, ?_⟩
  · apply memoGood_cons_fresh hm hgood
    refine ⟨fun _ => rfl, ?_⟩
    intro u hu hdeps
    rcases hcase with hnone | ⟨u', hu', hde'⟩
    · rw [hu] at hnone; exact absurd hnone (by simp)
    · rw [hu] at hu'
      injection hu' with he
      subst he
      exact absurd hde' hdeps
  · intro k w h
    have hs : (memo.lookup k).isSome := by simp [h]
    rw [lookup_cons_of_fresh hm hs]
    exact h
  · intro k h
    by_cases hk : k = id
    · subst hk
      exact Or.inr ⟨[k], DepChain.single k, rfl, rfl⟩
    · rw [lookup_cons_ne 0 memo hk] at h
      exact Or.inl h

/-- Running one memoized `getLayer` call with sufficient fuel on an
acyclic unit set succeeds and preserves the memo invariants: every memo
entry keeps its value, the processed id gains one, all new keys are
reachable from it, and `MemoGood` is maintained. -/
theorem getLayer1_spec {units : List WorkUnit} (hac : Acyclic units) :
    ∀ (fuel : Nat) (memo : List (String × Nat)) (id : String),
      MemoGood units memo →
      (∀ p, DepChain units p → p.head? = some id → p.length ≤ fuel + 1) →
      ∃ v memo', getLayer1 units fuel memo id = some (v, memo') ∧
        MemoGood units memo' ∧
        (∀ k w, memo.lookup k = some w → memo'.lookup k = some w) ∧
        memo'.lookup id = some v ∧
        (∀ k, (memo'.lookup k).isSome → (memo.lookup k).isSome ∨ Reach units id k) := by
  intro fuel
  induction fuel with
  | zero =>
    intro memo id hgood hbound
    cases hm : memo.lookup id with
    | some v =>
      exact ⟨v, memo, by simp [getLayer1, hm], hgood, fun k w h => h, hm,
        fun k h => Or.inl h⟩
    | none =>
      cases hf : findUnit units id with
      | none =>
        obtain ⟨h1, h2, h3, h4⟩ := zero_insert_facts hm hgood (Or.inl hf)
        exact ⟨0, (id, 0) :: memo, by simp [getLayer1, hm, hf], h1, h2, h3, h4⟩
      | some u =>
        by_cases hde : u.deps = []
        · obtain ⟨h1, h2, h3, h4⟩ := zero_insert_facts hm hgood (Or.inr ⟨u, hf, hde⟩)
          exact ⟨0, (id, 0) :: memo, by simp [getLayer1, hm, hf, hde], h1, h2, h3, h4⟩
        · exfalso
          obtain ⟨d, hd⟩ := List.exists_mem_of_ne_nil u.deps hde
          have hchain : DepChain units [id, d] :=
            DepChain.cons u hf hd (DepChain.single d)
          have := hbound [id, d] hchain rfl
          simp at this
  | succ fuel' IH =>
    intro memo id hgood hbound
    cases hm : memo.lookup id with
    | some v =>
      exact ⟨v, memo, by simp [getLayer1, hm], hgood, fun k w h => h, hm,
        fun k h => Or.inl h⟩
    | none =>
      cases hf : findUnit units id with
      | none =>
        obtain ⟨h1, h2, h3, h4⟩ := zero_insert_facts hm hgood (Or.inl hf)
        exact ⟨0, (id, 0) :: memo, by simp [getLayer1, hm, hf], h1, h2, h3, h4⟩
      | some u =>
        by_cases hde : u.deps = []
        · obtain ⟨h1, h2, h3, h4⟩ := zero_insert_facts hm hgood (Or.inr ⟨u, hf, hde⟩)
          exact ⟨0, (id, 0) :: memo, by simp [getLayer1, hm, hf, hde], h1, h2, h3, h4⟩
        · -- The recursive branch: fold `getLayer` over the deps.
          have hdne : ∀ d ∈ u.deps, d ≠ id := by
            intro d hd he
            exact hac ⟨id, id, ⟨u, hf, he ▸ hd⟩, [id], DepChain.single id, rfl, rfl⟩
          have hdbound : ∀ d ∈ u.deps, ∀ p, DepChain units p → p.head? = some d →
              p.length ≤ fuel' + 1 := by
            intro d hd p hp hh
            have hcons : DepChain units (id :: p) := depChain_cons_of_head hp hh hf hd
            have := hbound (id :: p) hcons rfl
            simp only [List.length_cons] at this
            omega
          have fold : ∀ (ds : List String),
              (∀ d ∈ ds, ∀ p, DepChain units p → p.head? = some d →
                p.length ≤ fuel' + 1) →
              ∀ (start : List Nat) (m0 : List (String × Nat)), MemoGood units m0 →
              ∃ vals m1,
                ds.foldl (fun acc d =>
                  match acc with
                  | none => none
                  | some (vals, m) =>
                    match getLayer1 units fuel' m d with
                    | none => none
                    | some (v, m') => some (vals ++ [v], m')) (some (start, m0))
                  = some (vals, m1) ∧
                MemoGood units m1 ∧
                (∀ k w, m0.lookup k = some w → m1.lookup k = some w) ∧
                (∀ d ∈ ds, (m1.lookup d).isSome) ∧
                vals = start ++ ds.map (fun d => (m1.lookup d).getD 0) ∧
                (∀ k, (m1.lookup k).isSome →
                  (m0.lookup k).isSome ∨ ∃ d ∈ ds, Reach units d k) := by
            intro ds
            induction ds with
            | nil =>
              intro _ start m0 hg
              exact ⟨start, m0, rfl, hg, fun k w h => h, by simp, by simp,
                fun k h => Or.inl h⟩
            | cons d ds' ihds =>
              intro hbounds start m0 hg
              obtain ⟨v, m', hev, hg', hpres', hlook', hnew'⟩ :=
                IH m0 d hg (hbounds d (List.mem_cons_self d ds'))
              obtain ⟨vals, m1, hfold, hg1, hpres1, hall1, hvals1, hnew1⟩ :=
                ihds (fun d' hd' => hbounds d' (List.mem_cons_of_mem d hd'))
                  (start ++ [v]) m' hg'
              refine ⟨vals, m1, ?_, hg1, ?_, ?_, ?_, ?_⟩
              · rw [List.foldl_cons]
                simp only [hev]
                exact hfold
              · intro k w h
                exact hpres1 k w (hpres' k w h)
              · intro d'' hd''
                rcases List.mem_cons.mp hd'' with rfl | hmem
                · have := hpres1 d'' v hlook'
                  simp [this]
                · exact hall1 d'' hmem
              · rw [hvals1]
                have hdv : (m1.lookup d).getD 0 = v := by
                  rw [hpres1 d v hlook']
                  rfl
                simp [hdv]
              · intro k h
                rcases hnew1 k h with h' | ⟨d', hd', hr⟩
                · rcases hnew' k h' with h'' | hr
                  · exact Or.inl h''
                  · exact Or.inr ⟨d, List.mem_cons_self d ds', hr⟩
                · exact Or.inr ⟨d', List.mem_cons_of_mem d hd', hr⟩
          obtain ⟨vals, m1, hfold, hg1, hpres1, hall1, hvals1, hnew1⟩ :=
            fold u.deps hdbound [] memo hgood
          have hfresh1 : m1.lookup id = none := by
            cases hc : m1.lookup id with
            | none => rfl
            | some w =>
              exfalso
              have : (m1.lookup id).isSome := by simp [hc]
              rcases hnew1 id this with hs | ⟨d, hd, p, hp, hh, hl⟩
              · rw [hm] at hs; simp at hs
              · exact hac ⟨id, d, ⟨u, hf, hd⟩, p, hp, hh, hl⟩
          refine ⟨vals.foldl max 0 + 1, (id, vals.foldl max 0 + 1) :: m1, ?_, ?_, ?_,
            lookup_cons_self id _ m1, ?_⟩
          · rw [getLayer1]
            simp only [hm, hf]
            rw [if_neg hde, hfold]
          · apply memoGood_cons_fresh hfresh1 hg1
            constructor
            · intro hcase
              exfalso
              rcases hcase with hnone | ⟨u', hu', hde'⟩
              · rw [hf] at hnone; exact absurd hnone (by simp)
              · rw [hf] at hu'
                injection hu' with he
                subst he
                exact absurd hde' hde
            · intro u' hu' _
              rw [hf] at hu'
              injection hu' with he
              subst he
              constructor
              · intro d hd
                rw [lookup_cons_ne _ m1 (hdne d hd)]
                exact hall1 d hd
              · have hmapeq :
                    u.deps.map
                      (fun d => (List.lookup d ((id, vals.foldl max 0 + 1) :: m1)).getD 0)
                      = u.deps.map (fun d => (m1.lookup d).getD 0) := by
                  apply List.map_congr_left
                  intro d hd
                  rw [lookup_cons_ne _ m1 (hdne d hd)]
                rw [hmapeq, hvals1]
                simp
          · intro k w h
            have h1 := hpres1 k w h
            have hs : (m1.lookup k).isSome := by simp [h1]
            rw [lookup_cons_of_fresh hfresh1 hs]
            exact h1
          · intro k h
            by_cases hk : k = id
            · subst hk
              exact Or.inr ⟨[k], DepChain.single k, rfl, rfl⟩
            · rw [lookup_cons_ne _ m1 hk] at h
              rcases hnew1 k h with hs | ⟨d, hd, p, hp, hh, hl⟩
              · exact Or.inl hs
              · refine Or.inr ⟨id :: p, depChain_cons_of_head hp hh hf hd, rfl, ?_⟩
                rw [getLast?_cons_of_ne_nil id hp.ne_nil]
                exact hl

theorem findUnit_eq_some {units : List WorkUnit} {a : String} {u : WorkUnit}
    (h : findUnit units a = some u) : u ∈ units ∧ u.id = a := by
  unfold findUnit at h
  exact ⟨List.mem_of_find?_eq_some h,
    of_decide_eq_true (List.find?_some (p := fun w : WorkUnit => decide (w.id = a)) h)⟩

/-- Running the top-level loop of `computeLayers` on an acyclic unit set
succeeds, with a `MemoGood` memo covering every unit id. -/
theorem computeLayersMemo_spec {units : List WorkUnit} (hac : Acyclic units) :
    ∃ memo, computeLayersMemo units (computeLayersFuel units) = some memo ∧
      MemoGood units memo ∧ ∀ u ∈ units, (memo.lookup u.id).isSome := by
  have hbound : ∀ (id : String), ∀ p, DepChain units p → p.head? = some id →
      p.length ≤ computeLayersFuel units + 1 := by
    intro id p hp _
    have := chain_length_le hac hp
    unfold computeLayersFuel
    omega
  have fold : ∀ (us : List WorkUnit) (m0 : List (String × Nat)), MemoGood units m0 →
      ∃ memo,
        us.foldl (fun acc u =>
          match acc with
          | none => none
          | some m => (getLayer1 units (computeLayersFuel units) m u.id).map Prod.snd)
          (some m0) = some memo ∧
        MemoGood units memo ∧
        (∀ k w, m0.lookup k = some w → memo.lookup k = some w) ∧
        ∀ u ∈ us, (memo.lookup u.id).isSome := by
    intro us
    induction us with
    | nil =>
      intro m0 hg
      exact ⟨m0, rfl, hg, fun k w h => h, by simp⟩
    | cons u us' ih =>
      intro m0 hg
      obtain ⟨v, m', hev, hg', hpres', hlook', _⟩ :=
        getLayer1_spec hac (computeLayersFuel units) m0 u.id hg (hbound u.id)
      obtain ⟨memo, hfold, hgm, hpres, hall⟩ := ih m' hg'
      refine ⟨memo, ?_, hgm, ?_, ?_⟩
      · rw [List.foldl_cons]
        simp only [hev]
        exact hfold
      · intro k w h
        exact hpres k w (hpres' k w h)
      · intro u'' hu''
        rcases List.mem_cons.mp hu'' with rfl | hmem
        · have := hpres u''.id v hlook'
          simp [this]
        · exact hall u'' hmem
  obtain ⟨memo, hfold, hgm, _, hall⟩ := fold units [] (by intro k w h; simp [List.lookup] at h)
  exact ⟨memo, hfold, hgm, hall⟩

/-- A pointwise rank certificate (each dep ranked strictly below its
dependent) implies acyclicity — used to discharge `Acyclic` at concrete
inputs. -/
theorem acyclic_of_rank {units : List WorkUnit} (rank : String → Nat)
    (h : ∀ u ∈ units, ∀ d ∈ u.deps, rank d < rank u.id) : Acyclic units := by
  have hchain : ∀ {p : List String}, DepChain units p → ∀ {a b : String},
      p.head? = some a → p.getLast? = some b → rank b ≤ rank a := by
    intro p hp
    induction hp with
    | single c =>
      intro a b ha hb
      simp only [List.head?_cons, Option.some.injEq] at ha
      simp only [List.getLast?_singleton, Option.some.injEq] at hb
      subst ha
      subst hb
      exact le_refl _
    | @cons a' b' rest u' hu' hb' hrest ih =>
      intro a b ha hb
      simp only [List.head?_cons, Option.some.injEq] at ha
      rw [List.getLast?_cons_cons] at hb
      have h1 : rank b ≤ rank b' := ih (a := b') (b := b) rfl hb
      obtain ⟨hmem, hid⟩ := findUnit_eq_some hu'
      have h2 : rank b' < rank u'.id := h u' hmem b' hb'
      rw [hid] at h2
      subst ha
      omega
  rintro ⟨x, y, ⟨u, hu, hy⟩, p, hp, hh, hl⟩
  have h1 : rank x ≤ rank y := hchain hp hh hl
  obtain ⟨hmem, hid⟩ := findUnit_eq_some hu
  have h2 := h u hmem y hy
  rw [hid] at h2
  omega

/-! ## C5 — computeLayers on acyclic unit sets -/

/-- C5: on every acyclic unit set `computeLayers` succeeds; the memo it
computes assigns layer 0 to units with no deps and `1 + max (layer d)`
over the deps otherwise; every dependency's layer index is strictly less
than its dependent's; every unit is placed in exactly one layer; and
every layer preserves the relative input order of `units` (it is a
sublist of the input). -/
theorem computeLayers_acyclic_spec :
    ∀ (units : List WorkUnit), Acyclic units →
    ∃ layers memo,
      computeLayers units = some layers ∧
      computeLayersMemo units (computeLayersFuel units) = some memo ∧
      (∀ u ∈ units, ∀ u₀, findUnit units u.id = some u₀ →
        ∃ v, memo.lookup u.id = some v ∧
          (u₀.deps = [] → v = 0) ∧
          (u₀.deps ≠ [] →
            v = (u₀.deps.map (fun d => (memo.lookup d).getD 0)).foldl max 0 + 1)) ∧
      (∀ u ∈ units, ∀ u₀, findUnit units u.id = some u₀ → ∀ d ∈ u₀.deps,
        (memo.lookup d).getD 0 < (memo.lookup u.id).getD 0) ∧
      (∀ u ∈ units, ∃ k, k < layers.length ∧ u ∈ layers.getD k [] ∧
        ∀ j, j < layers.length → u ∈ layers.getD j [] → j = k) ∧
      ∀ l ∈ layers, l.Sublist units := by
  intro units hac
  obtain ⟨memo, hmemo, hgood, hall⟩ := computeLayersMemo_spec hac
  have hlayers : computeLayers units =
      some ((List.range ((memo.map Prod.snd).foldl max 0 + 1)).map (fun i =>
        units.filter (fun u => memo.lookup u.id == some i))) := by
    unfold computeLayers
    rw [hmemo]
  have hlen : ((List.range ((memo.map Prod.snd).foldl max 0 + 1)).map (fun i =>
      units.filter (fun u => memo.lookup u.id == some i))).length
      = (memo.map Prod.snd).foldl max 0 + 1 := by
    rw [List.length_map, List.length_range]
  have hgetD : ∀ k, k < (memo.map Prod.snd).foldl max 0 + 1 →
      ((List.range ((memo.map Prod.snd).foldl max 0 + 1)).map (fun i =>
        units.filter (fun u => memo.lookup u.id == some i))).getD k []
      = units.filter (fun u => memo.lookup u.id == some k) := by
    intro k hk
    rw [List.getD_eq_getElem?_getD, List.getElem?_map, List.getElem?_range hk]
    rfl
  refine ⟨_, memo, hlayers, hmemo, ?_, ?_, ?_, ?_⟩
  · intro u hu u₀ hu₀
    obtain ⟨v, hv⟩ := Option.isSome_iff_exists.mp (hall u hu)
    obtain ⟨h0, hrec⟩ := hgood u.id v hv
    refine ⟨v, hv, ?_, ?_⟩
    · intro hde
      exact h0 (Or.inr ⟨u₀, hu₀, hde⟩)
    · intro hde
      exact (hrec u₀ hu₀ hde).2
  · intro u hu u₀ hu₀ d hd
    obtain ⟨v, hv⟩ := Option.isSome_iff_exists.mp (hall u hu)
    obtain ⟨_, hrec⟩ := hgood u.id v hv
    have hde : u₀.deps ≠ [] := List.ne_nil_of_mem hd
    obtain ⟨_, hval⟩ := hrec u₀ hu₀ hde
    rw [hv]
    have hmem : (memo.lookup d).getD 0 ∈
        u₀.deps.map (fun d => (memo.lookup d).getD 0) :=
      List.mem_map.mpr ⟨d, hd, rfl⟩
    have := le_foldl_max _ 0 _ hmem
    simp only [Option.getD_some]
    omega
  · intro u hu
    obtain ⟨v, hv⟩ := Option.isSome_iff_exists.mp (hall u hu)
    have hvle : v ≤ (memo.map Prod.snd).foldl max 0 :=
      le_foldl_max _ 0 v (lookup_mem_values hv)
    have hvlt : v < (memo.map Prod.snd).foldl max 0 + 1 := by omega
    refine ⟨v, ?_, ?_, ?_⟩
    · rw [hlen]; exact hvlt
    · rw [hgetD v hvlt]
      rw [List.mem_filter]
      refine ⟨hu, ?_⟩
      rw [hv]
      simp
    · intro j hj hmem
      rw [hlen] at hj
      rw [hgetD j hj, List.mem_filter] at hmem
      have := hmem.2
      rw [hv] at this
      have : (v : Nat) = j := by simpa using this
      omega
  · intro l hl
    obtain ⟨i, _, rfl⟩ := List.mem_map.mp hl
    exact List.filter_sublist units

/-- Witness for `computeLayers_acyclic_spec` on the spec §8 scenario
(`A`, `B` independent, `C` depending on both): the input is acyclic (a
rank certificate) and the computed layers are `[[A, B], [C]]`. -/
theorem computeLayers_acyclic_spec_witness :
    Acyclic scenarioUnits ∧
    computeLayers scenarioUnits =
      some [[mkUnit "A" [] "trivial", mkUnit "B" [] "trivial"],
            [mkUnit "C" ["A", "B"] "small"]] ∧
    (∃ layers memo,
      computeLayers scenarioUnits = some layers ∧
      computeLayersMemo scenarioUnits (computeLayersFuel scenarioUnits) = some memo ∧
      (∀ u ∈ scenarioUnits, ∀ u₀, findUnit scenarioUnits u.id = some u₀ →
        ∃ v, memo.lookup u.id = some v ∧
          (u₀.deps = [] → v = 0) ∧
          (u₀.deps ≠ [] →
            v = (u₀.deps.map (fun d => (memo.lookup d).getD 0)).foldl max 0 + 1)) ∧
      (∀ u ∈ scenarioUnits, ∀ u₀, findUnit scenarioUnits u.id = some u₀ →
        ∀ d ∈ u₀.deps,
        (memo.lookup d).getD 0 < (memo.lookup u.id).getD 0) ∧
      (∀ u ∈ scenarioUnits, ∃ k, k < layers.length ∧ u ∈ layers.getD k [] ∧
        ∀ j, j < layers.length → u ∈ layers.getD j [] → j = k) ∧
      ∀ l ∈ layers, l.Sublist scenarioUnits) := by
  have hac : Acyclic scenarioUnits :=
    acyclic_of_rank (fun id => if id = "C" then 1 else 0) (by decide)
  exact ⟨hac, by decide, computeLayers_acyclic_spec scenarioUnits hac⟩

/-! ### Groundedness and cycles -/

/-- A grounded id cannot sit on a cycle: there is no edge `x → y`
together with a dependency chain from `y` back to `x`. -/
theorem grounded_no_cycleEdge {units : List WorkUnit} :
    ∀ x, Grounded units x → ∀ y, (∃ u, findUnit units x = some u ∧ y ∈ u.deps) →
      ∀ p, DepChain units p → p.head? = some y → p.getLast? = some x → False := by
  intro x hx
  induction hx with
  | missing id h =>
    rintro y ⟨u, hu, _⟩ p _ _ _
    rw [h] at hu
    exact absurd hu (by simp)
  | found id u h hdeps ih =>
    rintro y ⟨u', hu', hy⟩ p hp hh hl
    rw [h] at hu'
    injection hu' with he
    subst he
    cases p with
    | nil => simp at hh
    | cons e p' =>
      simp only [List.head?_cons, Option.some.injEq] at hh
      subst hh
      cases p' with
      | nil =>
        simp only [List.getLast?_singleton, Option.some.injEq] at hl
        subst hl
        exact ih e hy e ⟨u, h, hy⟩ [e] (DepChain.single e) rfl rfl
      | cons e2 p'' =>
        obtain ⟨u₁, hu₁, he2⟩ := DepChain.head_found hp
        have htail : DepChain units (e2 :: p'') := DepChain.tail hp (by simp)
        rw [List.getLast?_cons_cons] at hl
        have hsnoc : DepChain units ((e2 :: p'') ++ [e]) :=
          depChain_snoc htail hl h hy
        exact ih e hy e2 ⟨u₁, hu₁, he2⟩ ((e2 :: p'') ++ [e]) hsnoc rfl
          (List.getLast?_concat _)

/-- If every unit id is grounded, the dependency relation is acyclic. -/
theorem acyclic_of_all_grounded {units : List WorkUnit}
    (h : ∀ u ∈ units, Grounded units u.id) : Acyclic units := by
  rintro ⟨x, y, ⟨u, hu, hyd⟩, p, hp, hh, hl⟩
  obtain ⟨hmem, hid⟩ := findUnit_eq_some hu
  have hg : Grounded units x := hid ▸ h u hmem
  exact grounded_no_cycleEdge x hg y ⟨u, hu, hyd⟩ p hp hh hl

/-! ### Generic fold fixed points -/

theorem foldl_fix {α β : Type} (g : α → β → α) (a : α) (hg : ∀ d, g a d = a) :
    ∀ ds : List β, ds.foldl g a = a := by
  intro ds
  induction ds with
  | nil => rfl
  | cons d ds ih => rw [List.foldl_cons, hg d]; exact ih

/-! ### Error monotonicity of the DFS -/

/-- A `dfs` call on an id already on the stack reports a cycle at once,
leaving the state untouched. -/
theorem dfs1_inStack_hit {units : List WorkUnit} {fuel : Nat} {s : DfsState}
    {id : String} (h : id ∈ s.inStack) : dfs1 units fuel s id = some (true, s) := by
  cases fuel with
  | zero => rw [dfs1, if_pos h]
  | succ fuel' => rw [dfs1, if_pos h]

/-- `dfs` only ever appends to the error list. -/
theorem dfs1_errors_mono (units : List WorkUnit) :
    ∀ (fuel : Nat) (s : DfsState) (id : String) (res : Bool) (s' : DfsState),
      dfs1 units fuel s id = some (res, s') →
      ∃ tail, s'.errors = s.errors ++ tail := by
  intro fuel
  induction fuel with
  | zero =>
    intro s id res s' h
    rw [dfs1] at h
    split at h
    · injection h with h
      injection h with _ h
      subst h
      exact ⟨[], by simp⟩
    · split at h
      · injection h with h
        injection h with _ h
        subst h
        exact ⟨[], by simp⟩
      · simp at h
  | succ fuel' IH =>
    intro s id res s' h
    rw [dfs1] at h
    split at h
    · injection h with h
      injection h with _ h
      subst h
      exact ⟨[], by simp⟩
    · split at h
      · injection h with h
        injection h with _ h
        subst h
        exact ⟨[], by simp⟩
      · -- fresh id: the body pushes id and folds over the unit's deps
        split at h
        · -- findUnit = none
          injection h with h
          injection h with _ h
          subst h
          exact ⟨[], by simp⟩
        · -- findUnit = some u
          rename_i u hf
          have foldmono : ∀ (ds : List String) (b : Bool) (t : DfsState)
              (r : Bool × DfsState),
              ds.foldl (fun acc d =>
                match acc with
                | none => none
                | some (true, t) => some (true, t)
                | some (false, t) =>
                  match dfs1 units fuel' t d with
                  | none => none
                  | some (true, t') =>
                    some (true, { t' with errors := t'.errors ++ [cycleMsg id d] })
                  | some (false, t') => some (false, t')) (some (b, t)) = some r →
              ∃ tail, r.2.errors = t.errors ++ tail := by
            intro ds
            induction ds with
            | nil =>
              intro b t r hr
              injection hr with hr
              subst hr
              exact ⟨[], by simp⟩
            | cons d ds' ihds =>
              intro b t r hr
              rw [List.foldl_cons] at hr
              cases b with
              | true =>
                exact ihds true t r hr
              | false =>
                cases hd1 : dfs1 units fuel' t d with
                | none =>
                  simp only [hd1] at hr
                  rw [foldl_fix _ none (fun _ => rfl) ds'] at hr
                  simp at hr
                | some pr =>
                  obtain ⟨res', t'⟩ := pr
                  simp only [hd1] at hr
                  obtain ⟨tail1, htail1⟩ := IH t d res' t' hd1
                  cases res' with
                  | true =>
                    rw [foldl_fix _ _ (fun _ => rfl) ds'] at hr
                    injection hr with hr
                    subst hr
                    exact ⟨tail1 ++ [cycleMsg id d], by simp [htail1]⟩
                  | false =>
                    obtain ⟨tail2, htail2⟩ := ihds false t' r hr
                    exact ⟨tail1 ++ tail2, by simp [htail2, htail1]⟩
          split at h
          · exact absurd h (by simp)
          · -- fold returned (true, s2)
            rename_i s2 hfr
            injection h with h
            injection h with _ h
            subst h
            obtain ⟨tail, htail⟩ := foldmono u.deps false _ _ hfr
            exact ⟨tail, htail⟩
          · -- fold returned (false, s2): inStack entry erased, errors kept
            rename_i s2 hfr
            injection h with h
            injection h with _ h
            subst h
            obtain ⟨tail, htail⟩ := foldmono u.deps false _ _ hfr
            exact ⟨tail, htail⟩

/-- Every successful `dfs` call either completes cleanly — no error
pushed, stack restored, every finished id grounded, the processed id
grounded — or returns `true` with a `Cycle detected` error recorded for
a genuine cycle edge. -/
theorem dfs1_clean_or_cycle (units : List WorkUnit) :
    ∀ (fuel : Nat) (s : DfsState) (id : String) (res : Bool) (s' : DfsState),
      dfs1 units fuel s id = some (res, s') →
      GoodS units s →
      DepChain units (s.inStack ++ [id]) →
      id ∉ s.inStack →
      (res = false ∧ s'.errors = s.errors ∧ s'.inStack = s.inStack ∧
        GoodS units s' ∧ Grounded units id) ∨
      (res = true ∧ ∃ x y, CycleEdge units x y ∧ cycleMsg x y ∈ s'.errors) := by
  intro fuel
  induction fuel with
  | zero =>
    intro s id res s' h hgs hstack hnotin
    rw [dfs1] at h
    split at h
    · exact absurd (by assumption) hnotin
    · split at h
      · rename_i hvis
        injection h with h
        injection h with h1 h2
        subst h2
        exact Or.inl ⟨h1.symm, rfl, rfl, hgs, hgs id hvis hnotin⟩
      · simp at h
  | succ fuel' IH =>
    intro s id res s' h hgs hstack hnotin
    rw [dfs1] at h
    split at h
    · exact absurd (by assumption) hnotin
    · split at h
      · rename_i hvis
        injection h with h
        injection h with h1 h2
        subst h2
        exact Or.inl ⟨h1.symm, rfl, rfl, hgs, hgs id hvis hnotin⟩
      · rename_i hfresh
        split at h
        · -- findUnit = none: clean completion, id grounded as missing
          rename_i hf
          injection h with h
          injection h with h1 h2
          subst h2
          have hstk : ((s.inStack ++ [id]).erase id) = s.inStack := by
            rw [List.erase_append_right [id] hnotin, List.erase_cons_head]
            simp
          refine Or.inl ⟨h1.symm, rfl, hstk, ?_, Grounded.missing id hf⟩
          intro k hk hkn
          simp only [List.mem_append, List.mem_singleton] at hk
          rcases hk with hk | rfl
          · rw [hstk] at hkn
            exact hgs k hk hkn
          · exact Grounded.missing k hf
        · -- findUnit = some u: fold over the deps
          rename_i u hf
          have foldlem : ∀ (ds : List String), (∀ d ∈ ds, d ∈ u.deps) →
              ∀ (t : DfsState) (b2 : Bool) (t2 : DfsState),
                ds.foldl (fun acc d =>
                  match acc with
                  | none => none
                  | some (true, t) => some (true, t)
                  | some (false, t) =>
                    match dfs1 units fuel' t d with
                    | none => none
                    | some (true, t') =>
                      some (true, { t' with errors := t'.errors ++ [cycleMsg id d] })
                    | some (false, t') => some (false, t')) (some (false, t))
                  = some (b2, t2) →
                GoodS units t →
                t.inStack = s.inStack ++ [id] →
                (b2 = false ∧ t2.errors = t.errors ∧ t2.inStack = t.inStack ∧
                  GoodS units t2 ∧ ∀ d ∈ ds, Grounded units d) ∨
                (b2 = true ∧ ∃ x y, CycleEdge units x y ∧ cycleMsg x y ∈ t2.errors) := by
            intro ds
            induction ds with
            | nil =>
              intro _ t b2 t2 hr hgt _
              injection hr with hr
              injection hr with hb ht
              subst ht
              exact Or.inl ⟨hb.symm, rfl, rfl, hgt, by simp⟩
            | cons d ds' ihds =>
              intro hds t b2 t2 hr hgt hstk
              have hd : d ∈ u.deps := hds d (List.mem_cons_self d ds')
              rw [List.foldl_cons] at hr
              by_cases hdin : d ∈ t.inStack
              · -- immediate cycle detection: d is on the stack
                have hd1 : dfs1 units fuel' t d = some (true, t) := dfs1_inStack_hit hdin
                simp only [hd1] at hr
                rw [foldl_fix _ _ (fun _ => rfl) ds'] at hr
                injection hr with hr
                injection hr with hb ht
                subst ht
                refine Or.inr ⟨hb.symm, id, d, ?_, ?_⟩
                · -- the closing edge id → d lies on a genuine cycle
                  rw [hstk] at hdin
                  obtain ⟨l₁, l₂, hdec⟩ := List.append_of_mem hdin
                  have hchain2 : DepChain units (d :: l₂) := by
                    apply depChain_suffix l₁ (d :: l₂) _ (by simp)
                    rw [← hdec]
                    exact hstack
                  refine ⟨⟨u, hf, hd⟩, d :: l₂, hchain2, rfl, ?_⟩
                  have : (l₁ ++ d :: l₂).getLast? = (d :: l₂).getLast? :=
                    List.getLast?_append_cons l₁ d l₂
                  rw [← this, ← hdec]
                  exact List.getLast?_concat _
                · simp
              · -- recurse into d
                cases hd1 : dfs1 units fuel' t d with
                | none =>
                  simp only [hd1] at hr
                  rw [foldl_fix _ none (fun _ => rfl) ds'] at hr
                  simp at hr
                | some pr =>
                  obtain ⟨res', t'⟩ := pr
                  have hstackd : DepChain units (t.inStack ++ [d]) := by
                    rw [hstk]
                    exact depChain_snoc hstack (List.getLast?_concat _) hf hd
                  rcases IH t d res' t' hd1 hgt hstackd hdin with
                    ⟨hres', herr', hstk', hgt', hgd⟩ | ⟨hres', x, y, hcyc, hmem⟩
                  · subst hres'
                    simp only [hd1] at hr
                    rcases ihds (fun d' hd' => hds d' (List.mem_cons_of_mem d hd'))
                        t' b2 t2 hr hgt' (hstk' ▸ hstk) with
                      ⟨hb, herr2, hstk2, hgt2, hgds⟩ | hright
                    · refine Or.inl ⟨hb, by rw [herr2, herr'], by rw [hstk2, hstk'],
                        hgt2, ?_⟩
                      intro d'' hd''
                      rcases List.mem_cons.mp hd'' with rfl | hmem'
                      · exact hgd
                      · exact hgds d'' hmem'
                    · exact Or.inr hright
                  · subst hres'
                    simp only [hd1] at hr
                    rw [foldl_fix _ _ (fun _ => rfl) ds'] at hr
                    injection hr with hr
                    injection hr with hb ht
                    subst ht
                    refine Or.inr ⟨hb.symm, x, y, hcyc, ?_⟩
                    simp only [List.mem_append]
                    exact Or.inl hmem
          split at h
          · exact absurd h (by simp)
          · -- the dep loop aborted with a detected cycle
            rename_i s2 hfr
            injection h with h
            injection h with h1 h2
            subst h2
            have hg1 : GoodS units
                { s with visited := s.visited ++ [id], inStack := s.inStack ++ [id] } := by
              intro k hk hkn
              simp only [List.mem_append, List.mem_singleton] at hk hkn
              push_neg at hkn
              rcases hk with hk | rfl
              · exact hgs k hk hkn.1
              · exact absurd rfl hkn.2
            rcases foldlem u.deps (fun _ hd => hd) _ true s2 hfr hg1 rfl with
              ⟨hb, _⟩ | ⟨_, x, y, hcyc, hmem⟩
            · exact absurd hb (by simp)
            · exact Or.inr ⟨h1.symm, x, y, hcyc, hmem⟩
          · -- the dep loop completed cleanly
            rename_i s2 hfr
            injection h with h
            injection h with h1 h2
            subst h2
            have hg1 : GoodS units
                { s with visited := s.visited ++ [id], inStack := s.inStack ++ [id] } := by
              intro k hk hkn
              simp only [List.mem_append, List.mem_singleton] at hk hkn
              push_neg at hkn
              rcases hk with hk | rfl
              · exact hgs k hk hkn.1
              · exact absurd rfl hkn.2
            rcases foldlem u.deps (fun _ hd => hd) _ false s2 hfr hg1 rfl with
              ⟨_, herr2, hstk2, hgt2, hgds⟩ | ⟨hb, _⟩
            · have hgid : Grounded units id := Grounded.found id u hf hgds
              have hstk : s2.inStack.erase id = s.inStack := by
                rw [hstk2]
                rw [List.erase_append_right [id] hnotin, List.erase_cons_head]
                simp
              refine Or.inl ⟨h1.symm, herr2, hstk, ?_, hgid⟩
              intro k hk hkn
              by_cases hkid : k = id
              · subst hkid
                exact hgid
              · apply hgt2 k hk
                rw [hstk2]
                simp only [List.mem_append, List.mem_singleton]
                push_neg
                rw [hstk] at hkn
                exact ⟨hkn, hkid⟩
            · exact absurd hb (by simp)

theorem dfsAll_errors_mono (units : List WorkUnit) (fuel : Nat) :
    ∀ (ids : List String) (s : DfsState) (sf : DfsState),
      dfsAll units fuel s ids = some sf → ∃ tail, sf.errors = s.errors ++ tail := by
  intro ids
  induction ids with
  | nil =>
    intro s sf h
    injection h with h
    subst h
    exact ⟨[], by simp⟩
  | cons id rest ih =>
    intro s sf h
    rw [dfsAll] at h
    cases hd1 : dfs1 units fuel s id with
    | none => rw [hd1] at h; simp at h
    | some pr =>
      obtain ⟨res, s'⟩ := pr
      rw [hd1] at h
      obtain ⟨tail1, h1⟩ := dfs1_errors_mono units fuel s id res s' hd1
      obtain ⟨tail2, h2⟩ := ih s' sf h
      exact ⟨tail1 ++ tail2, by rw [h2, h1, List.append_assoc]⟩

/-- The top-level DFS loop either runs cleanly — grounding every
processed id — or ends with a genuine cycle edge recorded in the
errors. -/
theorem dfsAll_clean_or_cycle (units : List WorkUnit) (fuel : Nat) :
    ∀ (ids : List String) (s : DfsState) (sf : DfsState),
      dfsAll units fuel s ids = some sf →
      GoodS units s → s.inStack = [] →
      (sf.errors = s.errors ∧ sf.inStack = [] ∧ GoodS units sf ∧
        ∀ id ∈ ids, Grounded units id) ∨
      (∃ x y, CycleEdge units x y ∧ cycleMsg x y ∈ sf.errors) := by
  intro ids
  induction ids with
  | nil =>
    intro s sf h hg hst
    injection h with h
    subst h
    exact Or.inl ⟨rfl, hst, hg, by simp⟩
  | cons id rest ih =>
    intro s sf h hg hst
    rw [dfsAll] at h
    cases hd1 : dfs1 units fuel s id with
    | none => rw [hd1] at h; simp at h
    | some pr =>
      obtain ⟨res, s'⟩ := pr
      rw [hd1] at h
      have hstack : DepChain units (s.inStack ++ [id]) := by
        rw [hst]
        exact DepChain.single id
      have hnotin : id ∉ s.inStack := by rw [hst]; simp
      rcases dfs1_clean_or_cycle units fuel s id res s' hd1 hg hstack hnotin with
        ⟨_, herr, hstk, hg', hgid⟩ | ⟨_, x, y, hcyc, hmem⟩
      · rcases ih s' sf h hg' (hstk.trans hst) with ⟨he2, hs2, hg2, hgr⟩ | hr
        · refine Or.inl ⟨he2.trans herr, hs2, hg2, ?_⟩
          intro i hi
          rcases List.mem_cons.mp hi with rfl | hi'
          · exact hgid
          · exact hgr i hi'
        · exact Or.inr hr
      · obtain ⟨tail, htail⟩ := dfsAll_errors_mono units fuel rest s' sf h
        refine Or.inr ⟨x, y, hcyc, ?_⟩
        rw [htail]
        exact List.mem_append_left tail hmem

/-! ### Totality of the DFS at the chosen fuel -/

theorem dfs1_total (units : List WorkUnit) :
    ∀ (fuel : Nat) (s : DfsState) (id : String),
      s.visited.Nodup → (∀ k ∈ s.visited, k ∈ allIds units) → id ∈ allIds units →
      (allIds units).dedup.length + 1 ≤ fuel + s.visited.length →
      ∃ res s', dfs1 units fuel s id = some (res, s') ∧
        s'.visited.Nodup ∧ (∀ k ∈ s'.visited, k ∈ allIds units) ∧
        s.visited.length ≤ s'.visited.length := by
  have hlenbound : ∀ (v : List String) (id : String), v.Nodup → id ∉ v →
      (∀ k ∈ v, k ∈ allIds units) → id ∈ allIds units →
      v.length + 1 ≤ (allIds units).dedup.length := by
    intro v id hnd hni hsub hid
    have hnd2 : (v ++ [id]).Nodup := by
      rw [List.nodup_append]
      refine ⟨hnd, by simp, ?_⟩
      intro a ha hb
      simp only [List.mem_singleton] at hb
      subst hb
      exact hni ha
    have hsub2 : ∀ k ∈ v ++ [id], k ∈ (allIds units).dedup := by
      intro k hk
      rw [List.mem_dedup]
      rcases List.mem_append.mp hk with hk | hk
      · exact hsub k hk
      · simp only [List.mem_singleton] at hk
        subst hk
        exact hid
    have := nodup_sub_length_le hnd2 hsub2
    simpa using this
  intro fuel
  induction fuel with
  | zero =>
    intro s id hnd hsub hid hcond
    by_cases h1 : id ∈ s.inStack
    · exact ⟨true, s, dfs1_inStack_hit h1, hnd, hsub, le_refl _⟩
    · by_cases h2 : id ∈ s.visited
      · exact ⟨false, s, by rw [dfs1, if_neg h1, if_pos h2], hnd, hsub, le_refl _⟩
      · exfalso
        have := hlenbound s.visited id hnd h2 hsub hid
        omega
  | succ fuel' IH =>
    intro s id hnd hsub hid hcond
    by_cases h1 : id ∈ s.inStack
    · exact ⟨true, s, dfs1_inStack_hit h1, hnd, hsub, le_refl _⟩
    · by_cases h2 : id ∈ s.visited
      · exact ⟨false, s, by rw [dfs1, if_neg h1, if_pos h2], hnd, hsub, le_refl _⟩
      · have hnd1 : (s.visited ++ [id]).Nodup := by
          rw [List.nodup_append]
          refine ⟨hnd, by simp, ?_⟩
          intro a ha hb
          simp only [List.mem_singleton] at hb
          subst hb
          exact h2 ha
        have hsub1 : ∀ k ∈ s.visited ++ [id], k ∈ allIds units := by
          intro k hk
          rcases List.mem_append.mp hk with hk | hk
          · exact hsub k hk
          · simp only [List.mem_singleton] at hk
            subst hk
            exact hid
        cases hf : findUnit units id with
        | none =>
          refine ⟨false,
            { s with visited := s.visited ++ [id],
                     inStack := (s.inStack ++ [id]).erase id },
            by rw [dfs1, if_neg h1, if_neg h2]; simp only [hf], hnd1, hsub1, by simp⟩
        | some u =>
          have hdepsub : ∀ d ∈ u.deps, d ∈ allIds units := by
            intro d hd
            obtain ⟨hmem, _⟩ := findUnit_eq_some hf
            unfold allIds
            rw [List.mem_flatMap]
            exact ⟨u, hmem, by simp [hd]⟩
          have foldtot : ∀ (ds : List String), (∀ d ∈ ds, d ∈ allIds units) →
              ∀ (b : Bool) (t : DfsState),
                t.visited.Nodup → (∀ k ∈ t.visited, k ∈ allIds units) →
                (allIds units).dedup.length + 1 ≤ fuel' + t.visited.length →
                ∃ r : Bool × DfsState,
                  ds.foldl (fun acc d =>
                    match acc with
                    | none => none
                    | some (true, t) => some (true, t)
                    | some (false, t) =>
                      match dfs1 units fuel' t d with
                      | none => none
                      | some (true, t') =>
                        some (true, { t' with errors := t'.errors ++ [cycleMsg id d] })
                      | some (false, t') => some (false, t')) (some (b, t)) = some r ∧
                  r.2.visited.Nodup ∧ (∀ k ∈ r.2.visited, k ∈ allIds units) ∧
                  t.visited.length ≤ r.2.visited.length := by
            intro ds
            induction ds with
            | nil =>
              intro _ b t hndt hsubt _
              exact ⟨(b, t), rfl, hndt, hsubt, le_refl _⟩
            | cons d ds' ihds =>
              intro hdss b t hndt hsubt hcondt
              cases b with
              | true =>
                obtain ⟨r, hr, hr1, hr2, hr3⟩ :=
                  ihds (fun d' hd' => hdss d' (List.mem_cons_of_mem d hd')) true t
                    hndt hsubt hcondt
                exact ⟨r, hr, hr1, hr2, hr3⟩
              | false =>
                obtain ⟨res', t', hd1, hnd', hsub', hlen'⟩ :=
                  IH t d hndt hsubt (hdss d (List.mem_cons_self d ds')) hcondt
                cases res' with
                | true =>
                  obtain ⟨r, hr, hr1, hr2, hr3⟩ :=
                    ihds (fun d' hd' => hdss d' (List.mem_cons_of_mem d hd')) true
                      { t' with errors := t'.errors ++ [cycleMsg id d] }
                      hnd' hsub'
                      (show (allIds units).dedup.length + 1 ≤ fuel' + t'.visited.length
                        by omega)
                  refine ⟨r, ?_, hr1, hr2,
                    le_trans hlen'
                      (show t'.visited.length ≤ r.2.visited.length from hr3)⟩
                  rw [List.foldl_cons]
                  simp only [hd1]
                  exact hr
                | false =>
                  obtain ⟨r, hr, hr1, hr2, hr3⟩ :=
                    ihds (fun d' hd' => hdss d' (List.mem_cons_of_mem d hd')) false t'
                      hnd' hsub' (by omega)
                  refine ⟨r, ?_, hr1, hr2, by omega⟩
                  rw [List.foldl_cons]
                  simp only [hd1]
                  exact hr
          obtain ⟨r, hr, hr1, hr2, hr3⟩ :=
            foldtot u.deps hdepsub false
              { s with visited := s.visited ++ [id], inStack := s.inStack ++ [id] }
              hnd1 hsub1 (by simp only [List.length_append, List.length_singleton]; omega)
          obtain ⟨b2, t2⟩ := r
          cases b2 with
          | true =>
            refine ⟨true, t2, ?_, hr1, hr2, ?_⟩
            · rw [dfs1, if_neg h1, if_neg h2]
              simp only [hf, hr]
            · simp only [List.length_append, List.length_singleton] at hr3
              omega
          | false =>
            refine ⟨false, { t2 with inStack := t2.inStack.erase id }, ?_, hr1, hr2,
              show s.visited.length ≤ t2.visited.length from ?_⟩
            · rw [dfs1, if_neg h1, if_neg h2]
              simp only [hf, hr]
            · simp only [List.length_append, List.length_singleton] at hr3
              omega

theorem dfsAll_total (units : List WorkUnit) (fuel : Nat) :
    ∀ (ids : List String) (s : DfsState),
      s.visited.Nodup → (∀ k ∈ s.visited, k ∈ allIds units) →
      (∀ i ∈ ids, i ∈ allIds units) →
      (allIds units).dedup.length + 1 ≤ fuel + s.visited.length →
      ∃ sf, dfsAll units fuel s ids = some sf := by
  intro ids
  induction ids with
  | nil => intro s _ _ _ _; exact ⟨s, rfl⟩
  | cons id rest ih =>
    intro s hnd hsub hids hcond
    obtain ⟨res, s', hd1, hnd', hsub', hlen'⟩ :=
      dfs1_total units fuel s id hnd hsub (hids id (List.mem_cons_self id rest)) hcond
    obtain ⟨sf, hrest⟩ :=
      ih s' hnd' hsub' (fun i hi => hids i (List.mem_cons_of_mem id hi)) (by omega)
    refine ⟨sf, ?_⟩
    rw [dfsAll, hd1]
    exact hrest

/-! ## C6 — validateDAG reports unknown deps and cycles -/

/-- C6: `validateDAG` records an `Unknown dependency` error for every
dep id that does not resolve to a unit of the set; on every unit set
containing a dependency cycle it returns `valid = false` with at least
one recorded `Cycle detected` error naming a genuine edge of a cycle;
and `valid` is true exactly when the error list is empty. -/
theorem validateDAG_spec :
    ∀ units : List WorkUnit,
      (∀ u ∈ units, ∀ d ∈ u.deps, d ∉ units.map WorkUnit.id →
        unknownDepMsg u.id d ∈ (validateDAG units).2) ∧
      (HasCycle units → (validateDAG units).1 = false ∧
        ∃ x y, CycleEdge units x y ∧ cycleMsg x y ∈ (validateDAG units).2) ∧
      ((validateDAG units).1 = true ↔ (validateDAG units).2 = []) := by
  intro units
  obtain ⟨sf, hsf⟩ :=
    dfsAll_total units (dfsFuel units) (units.map WorkUnit.id)
      { visited := [], inStack := [],
        errors := units.flatMap (fun u =>
          (u.deps.filter (fun d => !(units.map WorkUnit.id).contains d)).map
            (fun d => unknownDepMsg u.id d)) }
      (by simp) (by simp)
      (by
        intro i hi
        rw [List.mem_map] at hi
        obtain ⟨u, hu, rfl⟩ := hi
        unfold allIds
        rw [List.mem_flatMap]
        exact ⟨u, hu, by simp⟩)
      (by unfold dfsFuel; simp)
  have hval : validateDAG units = (sf.errors.isEmpty, sf.errors) := by
    unfold validateDAG
    simp only [hsf]
  obtain ⟨tail, htail⟩ :=
    dfsAll_errors_mono units (dfsFuel units) (units.map WorkUnit.id) _ sf hsf
  have herr : sf.errors = (units.flatMap (fun u =>
      (u.deps.filter (fun d => !(units.map WorkUnit.id).contains d)).map
        (fun d => unknownDepMsg u.id d))) ++ tail := htail
  refine ⟨?_, ?_, ?_⟩
  · intro u hu d hd hdnot
    rw [hval]
    simp only
    rw [herr]
    apply List.mem_append_left
    rw [List.mem_flatMap]
    refine ⟨u, hu, ?_⟩
    rw [List.mem_map]
    refine ⟨d, ?_, rfl⟩
    rw [List.mem_filter]
    exact ⟨hd, by simp [hdnot]⟩
  · intro hcyc
    rcases dfsAll_clean_or_cycle units (dfsFuel units) (units.map WorkUnit.id) _ sf hsf
        (by intro k hk _; simp at hk) rfl with
      ⟨_, _, _, hgall⟩ | ⟨x, y, hce, hmem⟩
    · exact absurd hcyc (acyclic_of_all_grounded
        (fun u hu => hgall u.id (List.mem_map.mpr ⟨u, hu, rfl⟩)))
    · rw [hval]
      refine ⟨?_, x, y, hce, hmem⟩
      simp only
      rw [Bool.eq_false_iff]
      intro hempty
      rw [List.isEmpty_iff] at hempty
      rw [hempty] at hmem
      simp at hmem
  · rw [hval]
    simp only
    exact List.isEmpty_iff

/-- Witness for `validateDAG_spec`: a concrete two-unit cycle is
detected with a genuine cycle edge, and a concrete unresolvable dep is
reported. -/
theorem validateDAG_spec_witness :
    HasCycle cycleUnits ∧
    (validateDAG cycleUnits).1 = false ∧
    (∃ x y, CycleEdge cycleUnits x y ∧ cycleMsg x y ∈ (validateDAG cycleUnits).2) ∧
    unknownDepMsg "X" "Z" ∈ (validateDAG [mkUnit "X" ["Z"] "small"]).2 := by
  have hcyc : HasCycle cycleUnits :=
    ⟨"X", "Y", ⟨mkUnit "X" ["Y"] "small", by decide, by decide⟩,
      ["Y", "X"],
      DepChain.cons (mkUnit "Y" ["X"] "small") (by decide) (by decide)
        (DepChain.single "X"), rfl, rfl⟩
  refine ⟨hcyc, ((validateDAG_spec cycleUnits).2.1 hcyc).1,
    ((validateDAG_spec cycleUnits).2.1 hcyc).2, ?_⟩
  exact (validateDAG_spec [mkUnit "X" ["Z"] "small"]).1 (mkUnit "X" ["Z"] "small")
    (by decide) "Z" (by decide) (by decide)

/-! ## C9 — tier stage lists are exactly the spec table and strictly nested -/

/-- C9: `SCHEDULED_TIERS` maps each of the four tiers to exactly the
spec's ordered stage list, and the lists are nested in stage identity:
trivial ⊆ small ⊆ medium ⊆ large (all smaller-to-larger pairs). -/
theorem scheduledTiers_exact_and_nested :
    SCHEDULED_TIERS "trivial" = some ["implement", "test"] ∧
    SCHEDULED_TIERS "small" = some ["implement", "test", "code-review"] ∧
    SCHEDULED_TIERS "medium" =
      some ["research", "plan", "implement", "test", "prd-review", "code-review",
            "review-fix"] ∧
    SCHEDULED_TIERS "large" =
      some ["research", "plan", "implement", "test", "prd-review", "code-review",
            "review-fix", "final-review"] ∧
    (∀ s ∈ trivialStages, s ∈ smallStages) ∧
    (∀ s ∈ trivialStages, s ∈ mediumStages) ∧
    (∀ s ∈ trivialStages, s ∈ largeStages) ∧
    (∀ s ∈ smallStages, s ∈ mediumStages) ∧
    (∀ s ∈ smallStages, s ∈ largeStages) ∧
    (∀ s ∈ mediumStages, s ∈ largeStages) := by
  refine ⟨rfl, rfl, rfl, rfl, ?_, ?_, ?_, ?_, ?_, ?_⟩ <;> decide

/-! ## C2 — the large tier-complete gate -/

/-- C2 counterexample: a `large` unit with passing tests and
`finalReview.readyToMoveOn = true` is tier-complete even though neither
review is approved and review-fix reports unresolved issues — the code's
`tierComplete` does not require the `medium` conditions for `large`, so
the claimed equivalence fails at this input. -/
theorem tierComplete_large_counterexample :
    tierComplete c2Ctx c2Units "a" = true ∧ specLargeTierGate c2Ctx "a" = false :=
  ⟨by decide, by decide⟩

/-- C2 (amended): for a unit of tier `large`, `tierComplete` holds iff
the latest test record reports both `testsPassed` and `buildPassed` AND
the latest final-review record has `readyToMoveOn = true`; the `medium`
review conditions are not separately required. -/
theorem tierComplete_large_iff (ctx : Ctx) (units : List WorkUnit) (unitId : String)
    (u : WorkUnit) (hu : findUnit units unitId = some u) (htier : u.tier = "large") :
    tierComplete ctx units unitId = true ↔
      (∃ t, ctx.latestTest (unitId ++ ":test") = some t ∧
        t.testsPassed = true ∧ t.buildPassed = true) ∧
      ∃ fr, ctx.latestFinalReview (unitId ++ ":final-review") = some fr ∧
        fr.readyToMoveOn = true := by
  unfold tierComplete
  rw [hu]
  cases htest : ctx.latestTest (unitId ++ ":test") with
  | none => simp
  | some t =>
    cases hfr : ctx.latestFinalReview (unitId ++ ":final-review") with
    | none => simp [htier, hfr]
    | some fr => simp [htier, hfr]

/-- Witness for `tierComplete_large_iff` at a concrete input. -/
theorem tierComplete_large_iff_witness :
    findUnit c2Units "a" = some (mkUnit "a" [] "large") ∧
    tierComplete c2Ctx c2Units "a" = true :=
  ⟨by decide,
    (tierComplete_large_iff c2Ctx c2Units "a" (mkUnit "a" [] "large") (by decide)
        (by decide)).mpr
      ⟨⟨passingTest, by decide, by decide, by decide⟩,
        ⟨readyFinalReview, by decide, by decide⟩⟩⟩

/-! ## C10 — missing unit or unknown tier, the large rules, and the
prototype-chain failure path -/

/-- C10 counterexample: for the unknown tier `"toString"` — a string
naming an `Object.prototype` member — the runtime property read yields
an inherited truthy function, so `tierHasStep` throws a `TypeError`
instead of answering stage membership against the `large` stage list:
the unknown tier does NOT always get the deepest pipeline rather than
failing. -/
theorem tierHasStep_prototype_counterexample :
    tierHasStepRuntime "toString" "implement"
      = Except.error "TypeError: stages.includes is not a function" ∧
    tierHasStepRuntime "toString" "implement"
      ≠ Except.ok (largeStages.contains "implement") :=
  ⟨rfl, fun h => Except.noConfusion h⟩

/-- C10 (amended): a unit id with no unit in the plan, or a unit whose
tier is not `trivial`/`small`/`medium`, is evaluated by `tierComplete`
under the `large` arm (tests then `finalReview.readyToMoveOn`);
`tierHasStep` answers membership against the `large` stage list for
every unknown tier EXCEPT the `Object.prototype` property names, for
which the lookup returns an inherited member and the program throws a
`TypeError` instead of falling back; away from those names the runtime
model agrees with the plain membership function. -/
theorem unknown_tier_rules_amended :
    (∀ (ctx : Ctx) (units : List WorkUnit) (unitId : String),
      findUnit units unitId = none →
      tierComplete ctx units unitId = largeGate ctx unitId) ∧
    (∀ (ctx : Ctx) (units : List WorkUnit) (unitId : String) (u : WorkUnit),
      findUnit units unitId = some u →
      u.tier ≠ "trivial" → u.tier ≠ "small" → u.tier ≠ "medium" →
      tierComplete ctx units unitId = largeGate ctx unitId) ∧
    (∀ tier : String,
      tier ≠ "trivial" → tier ≠ "small" → tier ≠ "medium" → tier ≠ "large" →
      tier ∉ objectPrototypeProps →
      ∀ step, tierHasStepRuntime tier step
        = Except.ok (largeStages.contains step)) ∧
    (∀ tier ∈ objectPrototypeProps, ∀ step,
      tierHasStepRuntime tier step
        = Except.error "TypeError: stages.includes is not a function") ∧
    (∀ tier : String, tier ∉ objectPrototypeProps →
      ∀ step, tierHasStepRuntime tier step = Except.ok (tierHasStep tier step)) := by
  refine ⟨?_, ?_, ?_, ?_, ?_⟩
  · intro ctx units unitId hnone
    unfold tierComplete largeGate
    rw [hnone]
    cases ctx.latestTest (unitId ++ ":test") <;> simp
  · intro ctx units unitId u hu h1 h2 h3
    unfold tierComplete largeGate
    rw [hu]
    cases ctx.latestTest (unitId ++ ":test") <;> simp [h1, h2, h3]
  · intro tier h1 h2 h3 h4 h5 step
    unfold tierHasStepRuntime SCHEDULED_TIERS_runtime SCHEDULED_TIERS
    simp [h1, h2, h3, h4, h5]
  · intro tier htier step
    fin_cases htier <;> rfl
  · intro tier h5 step
    cases hc : SCHEDULED_TIERS tier with
    | none =>
      unfold tierHasStepRuntime SCHEDULED_TIERS_runtime tierHasStep
      rw [hc]
      simp [h5]
    | some stages =>
      unfold tierHasStepRuntime SCHEDULED_TIERS_runtime tierHasStep
      rw [hc]

/-- Witness for `unknown_tier_rules_amended`: the missing-unit and
unknown-tier arms at concrete inputs — the ordinary unknown tier
`"epic"` gets the `large` fallback, while `"toString"` hits the
`TypeError` path. -/
theorem unknown_tier_rules_amended_witness :
    tierComplete c10Ctx c10Units "x" = largeGate c10Ctx "x" ∧
    tierComplete c10Ctx c10Units "x" = true ∧
    tierHasStepRuntime "epic" "final-review"
      = Except.ok (largeStages.contains "final-review") ∧
    tierHasStepRuntime "toString" "implement"
      = Except.error "TypeError: stages.includes is not a function" :=
  ⟨unknown_tier_rules_amended.2.1 c10Ctx c10Units "x" (mkUnit "x" [] "epic")
      (by decide) (by decide) (by decide) (by decide),
    by decide,
    unknown_tier_rules_amended.2.2.1 "epic" (by decide) (by decide) (by decide)
      (by decide) (by decide) "final-review",
    unknown_tier_rules_amended.2.2.2.1 "toString" (by decide) "implement"⟩

/-! ## C8 — termination condition and hard iteration ceiling -/

/-- C8: the Ralph loop's `done` flag is true iff the latest pass-tracker
count has reached `maxPasses` or every unit of the plan is landed, and
the `maxIterations` hard ceiling is proportional (factor 20) to unit
count times `maxPasses`. -/
theorem done_iff_pass_limit_or_all_landed :
    ∀ (ctx : Ctx) (layerMap : List (String × Nat)) (units : List WorkUnit)
      (maxPasses : Nat),
      (doneFlag ctx layerMap units maxPasses = true ↔
        (maxPasses ≤ currentPass ctx ∨
          ∀ u ∈ units, unitLanded ctx layerMap u.id = true)) ∧
      ralphMaxIterations maxPasses units = 20 * (units.length * maxPasses) := by
  intro ctx layerMap units maxPasses
  constructor
  · simp [doneFlag, allUnitsComplete, unitComplete, List.all_eq_true]
  · unfold ralphMaxIterations
    ring

/-! ## C7 — review-fix skip condition -/

/-- C7: for every tier whose stage list includes `review-fix`, the
`skipIf` of the review-fix task (`bothApproved`) holds iff the latest
prd-review record exists and is approved AND the latest code-review
record exists and is approved — evaluated from latest records at render
time. -/
theorem review_fix_skipped_iff_reviews_clean (ctx : Ctx) (uid tier : String)
    (h : tierHasStep tier "review-fix" = true) :
    bothApproved ctx uid tier = true ↔
      (∃ prd, ctx.latestPrdReview (uid ++ ":prd-review") = some prd ∧
        prd.approved = true) ∧
      ∃ cr, ctx.latestCodeReview (uid ++ ":code-review") = some cr ∧
        cr.approved = true := by
  have hprd := tierHasStep_reviewFix_imp_prdReview tier h
  unfold bothApproved
  rw [hprd]
  cases hp : ctx.latestPrdReview (uid ++ ":prd-review") <;>
    cases hc : ctx.latestCodeReview (uid ++ ":code-review") <;> simp

/-- Witness for `review_fix_skipped_iff_reviews_clean` at a concrete
medium-tier input with both reviews approved. -/
theorem review_fix_skipped_iff_reviews_clean_witness :
    tierHasStep "medium" "review-fix" = true ∧ bothApproved c7Ctx "m" "medium" = true :=
  ⟨by decide,
    (review_fix_skipped_iff_reviews_clean c7Ctx "m" "medium" (by decide)).mpr
      ⟨⟨approvedPrdReview, by decide, by decide⟩,
        ⟨approvedCodeReview, by decide, by decide⟩⟩⟩

/-! ## C1 — landed status is read from the latest record only -/

/-- C1 (code bug): at the failing input, `A` appears in the accumulated
`ticketsLanded` lists (pass 1), but because `unitLanded` consults only
the LATEST merge-queue record for the layer — whose `ticketsLanded` no
longer lists `A` — the code reports `A` as not landed, re-renders its
Quality Pipeline on the next pass, and offers it to the merge queue
again.  The repository's own documentation specifies membership in ANY
`ticketsLanded` array. -/
theorem unitLanded_reads_only_latest_record :
    unitLandedAccumulated c1Ctx c1LayerMap "A" = true ∧
    unitLanded c1Ctx c1LayerMap "A" = false ∧
    (phase1Units c1Ctx c1LayerMap (c1Layers.getD 0 [])).map WorkUnit.id = ["A"] ∧
    (buildMergeTickets c1Ctx c1Units c1LayerMap (c1Layers.getD 0 [])).map
      AgenticMergeQueueTicket.ticketId = ["A"] :=
  ⟨by decide, by decide, by decide, by decide⟩

/-! ## C4 — the render derivation and the iteration counter -/

/-- C4 counterexample: with the SAME store contents, evaluating
`buildMergeTickets` at iteration 2 offers the evicted unit `E` (a
passing test record exists at iteration 2) while evaluating at iteration
3 does not — the current iteration counter, not only the store contents,
feeds the derivation. -/
theorem buildMergeTickets_depends_on_iteration :
    c4CtxA.store = c4CtxB.store ∧
    (buildMergeTickets c4CtxA c4Units c4LayerMap c4Units).map
      AgenticMergeQueueTicket.ticketId = ["E"] ∧
    (buildMergeTickets c4CtxB c4Units c4LayerMap c4Units).map
      AgenticMergeQueueTicket.ticketId = [] :=
  ⟨rfl, by decide, by decide⟩

/-- C4 (amended): the runnable (not-yet-landed) set depends only on the
store contents — two evaluations over the same store at any two
iteration counters agree — and the merge-queue candidate filter agrees
across iteration counters for every unit not currently marked evicted;
only the fresh-test re-admission check for evicted units reads the
iteration counter. -/
theorem render_derivation_store_determined :
    ∀ (store : Store) (layerMap : List (String × Nat)) (units : List WorkUnit)
      (layer : List WorkUnit) (i j : Nat),
      phase1Units ⟨store, i⟩ layerMap layer = phase1Units ⟨store, j⟩ layerMap layer ∧
      ∀ u : WorkUnit, unitEvicted ⟨store, i⟩ layerMap u.id = false →
        mergeTicketFilter ⟨store, i⟩ units layerMap u
          = mergeTicketFilter ⟨store, j⟩ units layerMap u := by
  intro store layerMap units layer i j
  refine ⟨rfl, ?_⟩
  intro u hev
  have hev' : unitEvicted ⟨store, j⟩ layerMap u.id = false := hev
  unfold mergeTicketFilter
  rw [hev, hev']
  rfl

/-- Witness for `render_derivation_store_determined` at the C4 store and
a unit that is not marked evicted. -/
theorem render_derivation_store_determined_witness :
    phase1Units c4CtxA c4LayerMap c4Units = phase1Units c4CtxB c4LayerMap c4Units ∧
    unitEvicted c4CtxA c4LayerMap "Q" = false ∧
    mergeTicketFilter c4CtxA c4Units c4LayerMap (mkUnit "Q" [] "trivial")
      = mergeTicketFilter c4CtxB c4Units c4LayerMap (mkUnit "Q" [] "trivial") :=
  ⟨(render_derivation_store_determined c4Store c4LayerMap c4Units c4Units 2 3).1,
    by decide,
    (render_derivation_store_determined c4Store c4LayerMap c4Units c4Units 2 3).2
      (mkUnit "Q" [] "trivial") (by decide)⟩

/-! ## C3 — re-admission of evicted units and the fresh-test guard -/

/-- Supporting lemma (the guard that DOES hold): a unit marked evicted
by the LATEST merge-queue record of its layer (and not landed) is offered to
the merge queue only if a test record appended at the CURRENT iteration
reports both `buildPassed` and `testsPassed`; when every merge-queue
record predates the current iteration (as it does when a pass renders,
since the layer's own merge queue has not yet run this pass), that test
record is strictly newer than the eviction, so stale pre-eviction test
results never re-admit the unit. -/
theorem evicted_readmission_requires_fresh_test
    (ctx : Ctx) (units : List WorkUnit) (layerMap : List (String × Nat))
    (layer : List WorkUnit) (u : WorkUnit)
    (hev : unitEvicted ctx layerMap u.id = true)
    (hmq : ∀ nodeId, ∀ e ∈ ctx.store.merge_queue nodeId, e.iteration < ctx.iteration)
    (hoffered : u.id ∈ (buildMergeTickets ctx units layerMap layer).map
      AgenticMergeQueueTicket.ticketId) :
    ∃ e ∈ ctx.store.test (u.id ++ ":test"),
      e.record.testsPassed = true ∧ e.record.buildPassed = true ∧
      ∀ nodeId, ∀ me ∈ ctx.store.merge_queue nodeId, me.iteration < e.iteration := by
  unfold buildMergeTickets at hoffered
  rw [List.map_map] at hoffered
  obtain ⟨v, hvmem, hvid⟩ := List.mem_map.mp hoffered
  have hvfilter := (List.mem_filter.mp hvmem).2
  have hid : v.id = u.id := hvid
  unfold mergeTicketFilter at hvfilter
  rw [hid] at hvfilter
  rw [hev] at hvfilter
  cases hland : unitLanded ctx layerMap u.id with
  | true => rw [hland] at hvfilter; simp at hvfilter
  | false =>
    rw [hland] at hvfilter
    cases htc : tierComplete ctx units u.id with
    | false => rw [htc] at hvfilter; simp at hvfilter
    | true =>
      rw [htc] at hvfilter
      simp only [Bool.not_true, if_true, if_false, Bool.false_eq_true,
        if_neg, ite_true, ite_false] at hvfilter
      cases hout : ctx.outputMaybeTest (u.id ++ ":test") ctx.iteration with
      | none => simp [hout] at hvfilter
      | some ft =>
        simp only [hout] at hvfilter
        have hpass := hvfilter
        rw [Bool.and_eq_true] at hpass
        obtain ⟨e, hemem, hiter, hrec⟩ := outputAt_eq_some hout
        refine ⟨e, hemem, ?_, ?_, ?_⟩
        · rw [hrec]; exact hpass.1
        · rw [hrec]; exact hpass.2
        · intro nodeId me hme
          rw [hiter]
          exact hmq nodeId me hme

/-- Instance of `evicted_readmission_requires_fresh_test` at a concrete
fixture: `F` evicted at iteration 1, fresh passing test at iteration 2. -/
theorem evicted_readmission_requires_fresh_test_witness :
    unitEvicted c3Ctx c3LayerMap "F" = true ∧
    (∃ e ∈ c3Ctx.store.test "F:test",
      e.record.testsPassed = true ∧ e.record.buildPassed = true ∧
      ∀ nodeId, ∀ me ∈ c3Ctx.store.merge_queue nodeId, me.iteration < e.iteration) :=
  ⟨by decide,
    evicted_readmission_requires_fresh_test c3Ctx c3Units c3LayerMap c3Units
      (mkUnit "F" [] "trivial") (by decide)
      (by intro nodeId e he
          by_cases hn : nodeId = "merge-queue:layer-0"
          · subst hn; simp [c3Ctx, c3Store] at he; subst he; decide
          · simp [c3Ctx, c3Store, hn] at he)
      (by decide)⟩

/-- C3: the claim fails on the code. `U` was evicted (it appears in the
`ticketsEvicted` array of the iteration-1 merge-queue record), it has
not landed, and its only passing test record predates the eviction —
yet `buildMergeTickets` offers `U` to the merge queue. Because
`unitEvicted` consults only the LATEST merge-queue record of the layer
and the iteration-2 record no longer lists `U`, the code forgets the
eviction and skips the fresh-test re-admission guard entirely, so the
stale pre-eviction test suffices for re-admission. -/
theorem evicted_unit_readmitted_on_stale_test :
    unitEvictedAccumulated c3bCtx c3bLayerMap "U" = true ∧
    unitLanded c3bCtx c3bLayerMap "U" = false ∧
    unitEvicted c3bCtx c3bLayerMap "U" = false ∧
    (∀ e ∈ c3bCtx.store.test "U:test", e.iteration ≤ 1) ∧
    (∀ e ∈ c3bCtx.store.merge_queue "merge-queue:layer-0",
        e.record.ticketsEvicted.any (fun t => t.ticketId == "U") = true →
        e.iteration = 1) ∧
    (buildMergeTickets c3bCtx c3bUnits c3bLayerMap c3bUnits).map
      AgenticMergeQueueTicket.ticketId = ["U"] := by
  decide

end Ralphinho
